import Mathlib

/-!
# gophermart: order lifecycle and balance ledger

A shallow embedding of the order-number validator, the order and withdrawal
services, the two intake handlers and the accrual worker, followed by the
theorems that settle the claims of the specification against that code.

Conventions of the embedding.

* A Go `string` is its byte sequence (`GoString`); byte arithmetic is done on
  `Nat` with an explicit `% 256`.
* Monetary amounts are rationals.  The SQL arithmetic `+` / `-` is exact, and a
  value assigned to a `NUMERIC(10,2)` column is rounded to two decimals, ties
  away from zero (`round2`); the statement fails when the rounded value does
  not fit the column (`fitsNumeric`).
* The relational store is a record of three row lists.  A transaction works on
  a copy and the copy replaces the store only when `Commit` succeeds; every
  database call can fail, as decided by a `Faults` oracle.
* A Go `error` is an object with an identity (the place that allocated it) and
  a message; `errors.Is` compares identities along the `Unwrap` chain.
-/

namespace Gophermart

/-! ## Go strings -/

/-- A Go string: a finite sequence of bytes. -/
abbrev GoString := List (Fin 256)

/-- The bytes of an ASCII literal. -/
def ascii (s : String) : GoString := s.toList.map (fun c => Fin.ofNat c.toNat)

/-- Holds for the bytes '0' .. '9'. -/
def isDigit (b : Fin 256) : Bool := decide (48 ≤ b.val) && decide (b.val ≤ 57)

/-! ## handler/order.go: validateLuhn -/

/-- The loop of `validateLuhn` (order.go:89-99): `bytes` are the bytes still to
be visited, rightmost first; `double` and `sum` are the loop variables.
`s[i] - '0'` is a subtraction of bytes and wraps modulo 256. -/
def validateLuhn.loop : List (Fin 256) → Bool → Nat → Nat
  | [], _, sum => sum
  | b :: bytes, double, sum =>
    let digit := (b.val + 256 - 48) % 256
    let digit := if double then (if digit * 2 > 9 then digit * 2 - 9 else digit * 2) else digit
    validateLuhn.loop bytes (!double) (sum + digit)

/-- The function `validateLuhn` of handler/order.go:83-101. -/
def validateLuhn (s : GoString) : Bool :=
  if s.length < 2 then false
  else validateLuhn.loop s.reverse false 0 % 10 == 0

/-! ### The validator as the specification words it (section 4.1) -/

/-- Contribution of the digit `d` standing `i` places left of the rightmost
digit: every second digit, starting with the second from the right, is doubled
and 9 is subtracted from a doubled value exceeding 9. -/
def luhnTerm (i d : Nat) : Nat :=
  if i % 2 = 1 then (if 9 < 2 * d then 2 * d - 9 else 2 * d) else d

/-- The weighted alternating-digit sum of a digit string. -/
def luhnChecksum (s : GoString) : Nat :=
  (s.reverse.enum.map (fun p => luhnTerm p.1 (p.2.val - 48))).sum

/-- Valid in the sense of section 4.1: at least two characters, all digits,
checksum divisible by 10. -/
def LuhnValid (s : GoString) : Prop :=
  2 ≤ s.length ∧ (∀ b ∈ s, isDigit b = true) ∧ luhnChecksum s % 10 = 0

instance (s : GoString) : Decidable (LuhnValid s) := by
  unfold LuhnValid; infer_instance

/-! ## Go errors -/

/-- A Go error value.  `site` identifies the object (the package-level variable
or the call that allocated it), `text` is what `Error()` returns, and `wrap` is
a value made by `fmt.Errorf` with the verb `%w`, whose `Unwrap` is `inner`.
Objects allocated at different places are different objects. -/
inductive GoError where
  | obj (site : String) (text : String)
  | wrap (site : String) (text : String) (inner : GoError)
deriving DecidableEq, Repr

namespace GoError

/-- The identity of the error object. -/
def site : GoError → String
  | obj s _ => s
  | wrap s _ _ => s

/-- The method `Error()`. -/
def Error : GoError → String
  | obj _ t => t
  | wrap _ t _ => t

end GoError

/-- The call `errors.New(text)` evaluated at `site`. -/
def errorsNew (site text : String) : GoError := .obj site text

/-- The call `fmt.Errorf(msg + ": %w", inner)` evaluated at `site`. -/
def fmtErrorf (site msg : String) (inner : GoError) : GoError :=
  .wrap site (msg ++ ": " ++ inner.Error) inner

/-- The function `errors.Is`: `err` or an error in its `Unwrap` chain is the
very object `target`. -/
def errorsIs : GoError → GoError → Bool
  | .obj s _, target => s == target.site
  | .wrap s _ inner, target => s == target.site || errorsIs inner target

/-- The variable `service.ErrOrderAlreadyExistsByUser`. -/
def ErrOrderAlreadyExistsByUser : GoError :=
  errorsNew "service.ErrOrderAlreadyExistsByUser" "order already uploaded by this user"

/-- The variable `service.ErrOrderAlreadyExistsByOther`. -/
def ErrOrderAlreadyExistsByOther : GoError :=
  errorsNew "service.ErrOrderAlreadyExistsByOther" "order already uploaded by another user"

/-- The variable `sql.ErrNoRows`. -/
def sqlErrNoRows : GoError := errorsNew "sql.ErrNoRows" "sql: no rows in result set"

/-- An error reported by the database driver for a failed call. -/
def driverError : GoError := errorsNew "driver" "driver: bad connection"

/-- The error of the database for a value that does not fit its column. -/
def numericOverflow : GoError := errorsNew "driver" "ERROR: numeric field overflow (SQLSTATE 22003)"

/-! ## The store (database/schema.go) -/

/-! ### The column type NUMERIC(10,2) (schema.go:15-16, 25, 33) -/

/-- What a column of scale 2 stores for `x`: `x` rounded to two decimals, ties
away from zero. -/
def round2 (x : ℚ) : ℚ :=
  if 0 ≤ x then (⌊x * 100 + 1 / 2⌋ : ℚ) / 100 else -((⌊-x * 100 + 1 / 2⌋ : ℚ) / 100)

/-- The value `x` can be assigned to a NUMERIC(10,2) column: rounded to two
decimals it has at most eight digits before the point. -/
def fitsNumeric (x : ℚ) : Prop := -100000000 < round2 x ∧ round2 x < 100000000

instance (x : ℚ) : Decidable (fitsNumeric x) := by
  unfold fitsNumeric; infer_instance

/-- The amount `x` has at most two decimal places. -/
def twoDecimals (x : ℚ) : Prop := ∃ k : ℤ, x = k / 100

/-- An amount has at most two decimal places exactly when a column of scale 2
stores it as it is. -/
instance (x : ℚ) : Decidable (twoDecimals x) :=
  decidable_of_iff (round2 x = x) (by
    unfold round2 twoDecimals
    constructor
    · intro h
      split at h
      · exact ⟨⌊x * 100 + 1 / 2⌋, h.symm⟩
      · exact ⟨-⌊-x * 100 + 1 / 2⌋, by push_cast; linarith⟩
    · rintro ⟨k, rfl⟩
      have hfl : ∀ j : ℤ, ⌊(j : ℚ) + 1 / 2⌋ = j := by
        intro j
        rw [Int.floor_eq_iff]
        constructor <;> norm_num
      split
      · have : (k : ℚ) / 100 * 100 + 1 / 2 = (k : ℚ) + 1 / 2 := by ring
        rw [this, hfl]
      · have : -((k : ℚ) / 100) * 100 + 1 / 2 = ((-k : ℤ) : ℚ) + 1 / 2 := by push_cast; ring
        rw [this, hfl]
        push_cast; ring)

/-- A row of `users`: `id`, `current_balance`, `withdrawn` (the columns the
ledger uses).  Both amounts are `DEFAULT 0` and no statement of the repository
writes NULL to them, so `COALESCE(x, 0)` is `x`. -/
structure UserRow where
  id : String
  current_balance : ℚ
  withdrawn : ℚ
deriving DecidableEq, Repr

/-- A row of `orders`. -/
structure OrderRow where
  user_id : String
  number : GoString
  status : String
  accrual : ℚ
  uploaded_at : Nat
deriving DecidableEq, Repr

/-- A row of `withdrawals`; `sum` is a NUMERIC(10,2) column. -/
structure WithdrawalRow where
  user_id : String
  order_number : GoString
  sum : ℚ
  processed_at : Nat
deriving DecidableEq, Repr

/-- The relational store. -/
structure DB where
  users : List UserRow
  orders : List OrderRow
  withdrawals : List WithdrawalRow
deriving DecidableEq, Repr

/-- The database calls made by the services. -/
inductive DBCall where
  | beginTx
  | selectOrderOwner
  | insertOrder
  | updateOrder
  | selectOwnerAfterUpdate
  | creditBalance
  | selectBalance
  | insertWithdrawal
  | debitBalance
  | queryUnprocessed
  | commit
deriving DecidableEq, Repr

/-- The oracle deciding which database calls of one operation fail. -/
abbrev Faults := DBCall → Bool

/-- No database call fails. -/
def noFaults : Faults := fun _ => false

/-- The customer's row: `SELECT ... FROM users WHERE id = $1`. -/
def DB.user (db : DB) (id : String) : Option UserRow :=
  db.users.find? (fun u => u.id = id)

/-- Available balance of a customer, as `BalanceService.Get` reads it. -/
def DB.available (db : DB) (id : String) : Option ℚ :=
  (db.user id).map (fun u => u.current_balance)

/-- Withdrawn total of a customer, as `BalanceService.Get` reads it. -/
def DB.withdrawnTotal (db : DB) (id : String) : Option ℚ :=
  (db.user id).map (fun u => u.withdrawn)

/-- The order with a given number: `SELECT ... FROM orders WHERE number = $1`. -/
def DB.order (db : DB) (number : GoString) : Option OrderRow :=
  db.orders.find? (fun o => o.number = number)

/-- The constraint `number TEXT NOT NULL UNIQUE` of the table `orders`. -/
def DB.UniqueNumbers (db : DB) : Prop := (db.orders.map (fun o => o.number)).Nodup

instance (db : DB) : Decidable db.UniqueNumbers := by
  unfold DB.UniqueNumbers; infer_instance

/-- The constraint `id UUID PRIMARY KEY` of the table `users`. -/
def DB.UniqueUserIds (db : DB) : Prop := (db.users.map (fun u => u.id)).Nodup

instance (db : DB) : Decidable db.UniqueUserIds := by
  unfold DB.UniqueUserIds; infer_instance

/-- The customer is a row of `users`. -/
def DB.HasUser (db : DB) (id : String) : Prop := ∃ u ∈ db.users, u.id = id

instance (db : DB) (id : String) : Decidable (db.HasUser id) := by
  unfold DB.HasUser; infer_instance

/-! ## service/order.go -/

/-- The method `OrderService.Create` (service/order.go:27-63).  `now` is the value
of `time.Now()`.  The insert is refused by the foreign key of `orders.user_id`
when `userID` is not a row of `users`.  The result is the returned error and
the store after the call. -/
def OrderService.Create (db : DB) (f : Faults) (now : Nat) (userID : String)
    (number : GoString) : Option GoError × DB :=
  if f .beginTx then (some (fmtErrorf "service/order.go:30" "begin tx" driverError), db)
  else if f .selectOrderOwner then
    (some (fmtErrorf "service/order.go:46" "check order" driverError), db)
  else
    match db.order number with
    | some existing =>
      if existing.user_id = userID then (some ErrOrderAlreadyExistsByUser, db)
      else (some ErrOrderAlreadyExistsByOther, db)
    | none =>
      if f .insertOrder || !(db.users.any (fun u => u.id = userID)) then
        (some (fmtErrorf "service/order.go:54" "insert order" driverError), db)
      else
        let tx : DB := { db with orders := db.orders ++ [⟨userID, number, "NEW", 0, now⟩] }
        if f .commit then (some (fmtErrorf "service/order.go:59" "commit tx" driverError), db)
        else (none, tx)

/-- The rows after `UPDATE orders SET status = $1 [, accrual = $2] WHERE number = $3`;
the accrual is stored in a NUMERIC(10,2) column. -/
def updateOrderRows (orders : List OrderRow) (number : GoString) (status : String)
    (accrual : Option ℚ) : List OrderRow :=
  orders.map (fun o =>
    if o.number = number then
      match accrual with
      | some a => { o with status := status, accrual := round2 a }
      | none => { o with status := status }
    else o)

/-- The database accepts that update of `orders`: the accrual fits the column in
every row it is assigned to. -/
def accrualFits (orders : List OrderRow) (number : GoString) (accrual : Option ℚ) : Prop :=
  match accrual with
  | some a => ∀ o ∈ orders, o.number = number → fitsNumeric a
  | none => True

instance (orders : List OrderRow) (number : GoString) (accrual : Option ℚ) :
    Decidable (accrualFits orders number accrual) := by
  unfold accrualFits; cases accrual <;> infer_instance

/-- The rows after `UPDATE users SET current_balance = COALESCE(current_balance, 0) + $1
WHERE id = $2`; the balance is stored in a NUMERIC(10,2) column. -/
def creditRows (users : List UserRow) (userID : String) (amount : ℚ) : List UserRow :=
  users.map (fun u =>
    if u.id = userID then { u with current_balance := round2 (u.current_balance + amount) }
    else u)

/-- The database accepts that update of `users`: the new balance fits the column
in every row it is assigned to. -/
def creditFits (users : List UserRow) (userID : String) (amount : ℚ) : Prop :=
  ∀ u ∈ users, u.id = userID → fitsNumeric (u.current_balance + amount)

instance (users : List UserRow) (userID : String) (amount : ℚ) :
    Decidable (creditFits users userID amount) := by
  unfold creditFits; infer_instance

/-- The method `OrderService.UpdateStatus` (service/order.go:97-130).  Each of the
two updates fails, like on a fault, when the database does not accept the
amount. -/
def OrderService.UpdateStatus (db : DB) (f : Faults) (number : GoString) (status : String)
    (accrual : Option ℚ) : Option GoError × DB :=
  if f .beginTx then (some (fmtErrorf "service/order.go:100" "begin tx" driverError), db)
  else if f .updateOrder then
    (some (fmtErrorf "service/order.go:113" "update order" driverError), db)
  else if ¬ accrualFits db.orders number accrual then
    (some (fmtErrorf "service/order.go:113" "update order" numericOverflow), db)
  else
    let tx : DB := { db with orders := updateOrderRows db.orders number status accrual }
    match accrual with
    | some a =>
      if status = "PROCESSED" then
        if f .selectOwnerAfterUpdate then
          (some (fmtErrorf "service/order.go:120" "get user_id" driverError), db)
        else
          match tx.order number with
          | none => (some (fmtErrorf "service/order.go:120" "get user_id" sqlErrNoRows), db)
          | some o =>
            if f .creditBalance then
              (some (fmtErrorf "service/order.go:125" "update balance" driverError), db)
            else if ¬ creditFits tx.users o.user_id a then
              (some (fmtErrorf "service/order.go:125" "update balance" numericOverflow), db)
            else
              let tx : DB := { tx with users := creditRows tx.users o.user_id a }
              if f .commit then (some driverError, db) else (none, tx)
      else if f .commit then (some driverError, db) else (none, tx)
    | none => if f .commit then (some driverError, db) else (none, tx)

/-- The method `OrderService.GetUnprocessed` (service/order.go:132-163): the rows with
status NEW or PROCESSING, oldest first, at most `limit` of them. -/
def OrderService.GetUnprocessed (db : DB) (f : Faults) (limit : Nat) :
    Except GoError (List OrderRow) :=
  if f .queryUnprocessed then
    .error (fmtErrorf "service/order.go:141" "query unprocessed" driverError)
  else
    .ok (((db.orders.filter (fun o => o.status = "NEW" ∨ o.status = "PROCESSING")).insertionSort
      (fun a b => a.uploaded_at ≤ b.uploaded_at)).take limit)

/-! ## service/withdrawal.go -/

/-- The rows after `UPDATE users SET current_balance = current_balance - $1,
withdrawn = withdrawn + $1 WHERE id = $2`; both amounts are stored in
NUMERIC(10,2) columns. -/
def debitRows (users : List UserRow) (userID : String) (sum : ℚ) : List UserRow :=
  users.map (fun u =>
    if u.id = userID then
      { u with current_balance := round2 (u.current_balance - sum),
               withdrawn := round2 (u.withdrawn + sum) }
    else u)

/-- The database accepts that update of `users`: both new amounts fit their
columns in every row they are assigned to. -/
def debitFits (users : List UserRow) (userID : String) (sum : ℚ) : Prop :=
  ∀ u ∈ users, u.id = userID →
    fitsNumeric (u.current_balance - sum) ∧ fitsNumeric (u.withdrawn + sum)

instance (users : List UserRow) (userID : String) (sum : ℚ) :
    Decidable (debitFits users userID sum) := by
  unfold debitFits; infer_instance

/-- The method `WithdrawalService.Create` (service/withdrawal.go:21-55).  The insert
and the update fail, like on a fault, when the database does not accept the
amount; the record holds the sum as its NUMERIC(10,2) column stores it. -/
def WithdrawalService.Create (db : DB) (f : Faults) (now : Nat) (userID : String)
    (orderNumber : GoString) (sum : ℚ) : Option GoError × DB :=
  if f .beginTx then (some (fmtErrorf "service/withdrawal.go:24" "begin tx" driverError), db)
  else if f .selectBalance then
    (some (fmtErrorf "service/withdrawal.go:31" "get balance" driverError), db)
  else
    match db.user userID with
    | none => (some (fmtErrorf "service/withdrawal.go:31" "get balance" sqlErrNoRows), db)
    | some u =>
      let current := u.current_balance
      if current < sum then
        (some (errorsNew "service/withdrawal.go:35" "insufficient funds"), db)
      else if f .insertWithdrawal then
        (some (fmtErrorf "service/withdrawal.go:43" "insert withdrawal" driverError), db)
      else if ¬ fitsNumeric sum then
        (some (fmtErrorf "service/withdrawal.go:43" "insert withdrawal" numericOverflow), db)
      else
        let tx : DB :=
          { db with withdrawals := db.withdrawals ++ [⟨userID, orderNumber, round2 sum, now⟩] }
        if f .debitBalance then
          (some (fmtErrorf "service/withdrawal.go:51" "update balance" driverError), db)
        else if ¬ debitFits tx.users userID sum then
          (some (fmtErrorf "service/withdrawal.go:51" "update balance" numericOverflow), db)
        else
          let tx : DB := { tx with users := debitRows tx.users userID sum }
          if f .commit then (some driverError, db) else (none, tx)

/-! ## service/accrual.go -/

/-- The type `AccrualResponse`: the decoded JSON answer of the accrual authority. -/
structure AccrualResponse where
  Order : GoString
  Status : String
  Accrual : ℚ
deriving DecidableEq, Repr

/-- What the HTTP exchange with the accrual authority produced: the request
could not be built, the round trip failed, or a response arrived with a
status code and a body (`decoded` is the result of decoding it as JSON). -/
inductive Exchange where
  | createFailed
  | doFailed
  | response (statusCode : Nat) (decoded : Option AccrualResponse)
deriving DecidableEq, Repr

/-- The method `AccrualClient.GetOrder` (service/accrual.go:31-60), as a function of
the outcome of the HTTP exchange.  The message of the last branch is cut after
the status code; the texts of the errors of net/http and encoding/json are
placeholders. -/
def AccrualClient.GetOrder (x : Exchange) : Except GoError AccrualResponse :=
  match x with
  | .createFailed =>
    .error (fmtErrorf "service/accrual.go:35" "create request" (errorsNew "net/http" "invalid URL"))
  | .doFailed =>
    .error (fmtErrorf "service/accrual.go:40" "do request" (errorsNew "net/http" "round trip failed"))
  | .response statusCode decoded =>
    if statusCode = 200 then
      match decoded with
      | some res => .ok res
      | none =>
        .error (fmtErrorf "service/accrual.go:48" "decode response"
          (errorsNew "encoding/json" "invalid character"))
    else if statusCode = 204 then .error (errorsNew "service/accrual.go:52" "order not registered")
    else if statusCode = 429 then .error (errorsNew "service/accrual.go:54" "rate limit exceeded")
    else .error (errorsNew "service/accrual.go:57" ("unexpected status: " ++ toString statusCode))

/-! ## worker/accrual_worker.go -/

/-- The status and accrual handed to `UpdateStatus` for a decoded answer
(worker/accrual_worker.go:68-86). -/
def AccrualWorker.transition (resp : AccrualResponse) : String × Option ℚ :=
  let status := resp.Status
  if status = "PROCESSED" ∨ status = "INVALID" then
    if status = "PROCESSED" then
      if resp.Accrual > 0 then ("PROCESSED", some resp.Accrual) else ("INVALID", none)
    else if status = "INVALID" then ("INVALID", none)
    else if status = "REGISTERED" ∨ status = "PROCESSING" then ("PROCESSING", none)
    else (status, none)
  else if status = "REGISTERED" ∨ status = "PROCESSING" then ("PROCESSING", none)
  else (status, none)

/-- The loop state of `processBatch`: the store and the order numbers for which
the gateway has been queried so far, in order. -/
structure CycleState where
  db : DB
  queried : List GoString
deriving DecidableEq, Repr

/-- One iteration of the loop of `processBatch` (worker/accrual_worker.go:54-93).
`authority` is the outcome of the HTTP exchange for each order number and
`faults` the database faults met while updating each order. -/
def AccrualWorker.processOrder (authority : GoString → Exchange) (faults : GoString → Faults)
    (st : CycleState) (order : OrderRow) : CycleState :=
  let st : CycleState := { st with queried := st.queried ++ [order.number] }
  match AccrualClient.GetOrder (authority order.number) with
  | .error err =>
    if err.Error = "rate limit exceeded" then st
    else if err.Error = "order not registered" then st
    else st
  | .ok resp =>
    let t := AccrualWorker.transition resp
    { st with db := (OrderService.UpdateStatus st.db (faults order.number) order.number t.1 t.2).2 }

/-- The method `AccrualWorker.processBatch` (worker/accrual_worker.go:48-96): one
reconciliation cycle.  `qf` are the faults met by `GetUnprocessed`. -/
def AccrualWorker.processBatch (batchSize : Nat) (authority : GoString → Exchange)
    (qf : Faults) (faults : GoString → Faults) (db : DB) : Option GoError × CycleState :=
  match OrderService.GetUnprocessed db qf batchSize with
  | .error err =>
    (some (fmtErrorf "worker/accrual_worker.go:51" "get unprocessed orders" err), ⟨db, []⟩)
  | .ok orders =>
    (none, orders.foldl (AccrualWorker.processOrder authority faults) ⟨db, []⟩)

/-- The batch size set by `NewAccrualWorker`. -/
def AccrualWorker.batchSize : Nat := 5

/-! ## Library functions used by the handlers -/

/-- The table `asciiSpace` of package strings: tab, line feed, vertical tab,
form feed, carriage return, space. -/
def asciiSpace (b : Fin 256) : Bool :=
  b.val == 9 || b.val == 10 || b.val == 11 || b.val == 12 || b.val == 13 || b.val == 32

/-- The UTF-8 encodings of the runes above U+007F for which `unicode.IsSpace`
holds: U+0085, U+00A0, U+1680, U+2000 .. U+200A, U+2028, U+2029, U+202F, U+205F,
U+3000. -/
def unicodeSpaces : List GoString :=
  [[0xC2, 0x85], [0xC2, 0xA0], [0xE1, 0x9A, 0x80],
   [0xE2, 0x80, 0x80], [0xE2, 0x80, 0x81], [0xE2, 0x80, 0x82], [0xE2, 0x80, 0x83],
   [0xE2, 0x80, 0x84], [0xE2, 0x80, 0x85], [0xE2, 0x80, 0x86], [0xE2, 0x80, 0x87],
   [0xE2, 0x80, 0x88], [0xE2, 0x80, 0x89], [0xE2, 0x80, 0x8A],
   [0xE2, 0x80, 0xA8], [0xE2, 0x80, 0xA9], [0xE2, 0x80, 0xAF], [0xE2, 0x81, 0x9F],
   [0xE3, 0x80, 0x80]]

/-- Width in bytes of the white-space rune that `s` starts with (`rev = false`)
or, for a string given back to front, ends with (`rev = true`); 0 when there is
none. -/
def spaceWidth (rev : Bool) (s : GoString) : Nat :=
  match s with
  | [] => 0
  | b :: _ =>
    if asciiSpace b then 1
    else
      match unicodeSpaces.find? (fun e => (if rev then e.reverse else e).isPrefixOf s) with
      | some e => e.length
      | none => 0

/-- Removes leading white-space runes, at most `fuel` of them. -/
def trimSpaces (rev : Bool) : Nat → GoString → GoString
  | 0, s => s
  | fuel + 1, s =>
    match spaceWidth rev s with
    | 0 => s
    | w + 1 => trimSpaces rev fuel (s.drop (w + 1))

/-- The function `strings.TrimSpace`: leading white space is removed, then
trailing white space. -/
def TrimSpace (s : GoString) : GoString :=
  let left := trimSpaces false s.length s
  (trimSpaces true left.length left.reverse).reverse

/-- The function `strconv.ParseUint(s, 10, 64)`: the value of a non-empty string
of decimal digits that fits 64 bits. -/
def ParseUint (s : GoString) : Option Nat :=
  if s = [] then none
  else
    s.foldl (fun acc c =>
      match acc with
      | none => none
      | some n =>
        if isDigit c then
          (if n * 10 + (c.val - 48) < 2 ^ 64 then some (n * 10 + (c.val - 48)) else none)
        else none) (some 0)

/-! ## handler/order.go -/

/-- The outcome of serving a request: the status code written, or a panic of
the handler. -/
inductive Response where
  | status (code : Nat)
  | panicked
deriving DecidableEq, Repr

/-- A request to `UploadOrderHandler`: the method, the value stored under
`mw.UserCtxKey` when it is a string, and the body. -/
structure UploadRequest where
  Method : String
  userID : Option String
  Body : GoString
deriving DecidableEq, Repr

/-- The function `readOrderNumber` (handler/order.go:61-81) on a body that could
be read from the connection. -/
def readOrderNumber (body : GoString) : Except GoError GoString :=
  if 1024 < body.length then .error (errorsNew "handler/order.go:66" "request body too large")
  else
    let number := TrimSpace body
    if number = [] then .error (errorsNew "handler/order.go:73" "empty order number")
    else
      match ParseUint number with
      | none => .error (errorsNew "handler/order.go:77" "order number must contain only digits")
      | some _ => .ok number

/-- The handler `UploadOrderHandler` (handler/order.go:17-59).  `create` is the
method `Create` of the order service the handler was built with. -/
def UploadOrderHandler (create : String → GoString → DB → Option GoError × DB)
    (r : UploadRequest) (db : DB) : Response × DB :=
  if r.Method ≠ "POST" then (.status 405, db)
  else
    match r.userID with
    | none => (.status 401, db)
    | some userID =>
      match readOrderNumber r.Body with
      | .error _ => (.status 400, db)
      | .ok number =>
        if !validateLuhn number then (.status 422, db)
        else
          match create userID number db with
          | (some err, db') =>
            if errorsIs err ErrOrderAlreadyExistsByUser then (.status 200, db')
            else if errorsIs err ErrOrderAlreadyExistsByOther then (.status 409, db')
            else (.status 500, db')
          | (none, db') => (.status 202, db')

/-! ## handler/withdrawal.go -/

/-- The type `withdrawRequest`: the decoded JSON body. -/
structure withdrawRequest where
  Order : GoString
  Sum : ℚ
deriving DecidableEq, Repr

/-- A request to `WithdrawHandler`: the method, the value stored under
`mw.UserCtxKey` when it is a string, and the body decoded as JSON (`none` when
decoding fails). -/
structure WithdrawHTTPRequest where
  Method : String
  userID : Option String
  decoded : Option withdrawRequest
deriving DecidableEq, Repr

/-- The handler `WithdrawHandler` (handler/withdrawal.go:19-56).  `create` is the
method `Create` of the withdrawal service the handler was built with.  The
type assertion on the user id is unchecked and panics when it fails. -/
def WithdrawHandler (create : String → GoString → ℚ → DB → Option GoError × DB)
    (r : WithdrawHTTPRequest) (db : DB) : Response × DB :=
  if r.Method ≠ "POST" then (.status 405, db)
  else
    match r.userID with
    | none => (.panicked, db)
    | some userID =>
      match r.decoded with
      | none => (.status 400, db)
      | some req =>
        if req.Order = [] ∨ req.Sum ≤ 0 then (.status 422, db)
        else if !validateLuhn req.Order then (.status 422, db)
        else
          match create userID req.Order req.Sum db with
          | (some err, db') =>
            if errorsIs err (errorsNew "handler/withdrawal.go:44" "insufficient funds") then
              (.status 402, db')
            else (.status 500, db')
          | (none, db') => (.status 200, db')

/-- The order service as the process wires it (cmd/gophermart/main.go). -/
def orderSvc (f : Faults) (now : Nat) : String → GoString → DB → Option GoError × DB :=
  fun userID number db => OrderService.Create db f now userID number

/-- The withdrawal service as the process wires it (cmd/gophermart/main.go). -/
def withdrawalSvc (f : Faults) (now : Nat) :
    String → GoString → ℚ → DB → Option GoError × DB :=
  fun userID orderNumber sum db => WithdrawalService.Create db f now userID orderNumber sum

/-! ## White space and the numeric value of an order number -/

/-- The white-space runes of `unicode.IsSpace`, each as its UTF-8 encoding: tab,
line feed, vertical tab, form feed, carriage return, space, and the runes of
`unicodeSpaces`. -/
def spaceRunes : List GoString :=
  [[9], [10], [11], [12], [13], [32]] ++ unicodeSpaces

/-- A string that consists of white-space runes only (possibly none). -/
inductive WhiteSpace : GoString → Prop where
  | nil : WhiteSpace []
  | cons (r s : GoString) : r ∈ spaceRunes → WhiteSpace s → WhiteSpace (r ++ s)

/-- The number a string of decimal digits denotes. -/
def decimalValue (s : GoString) : Nat :=
  s.foldl (fun n c => n * 10 + (c.val - 48)) 0

/-! ## Observations of the store used by the invariants -/

/-- The statuses an order can have according to model/order.go. -/
def knownStatus (s : String) : Prop :=
  s = "NEW" ∨ s = "PROCESSING" ∨ s = "INVALID" ∨ s = "PROCESSED"

instance (s : String) : Decidable (knownStatus s) := by
  unfold knownStatus; infer_instance

/-- The statuses an answer of the accrual authority can carry according to
service/accrual.go. -/
def documentedStatus (s : String) : Prop :=
  s = "REGISTERED" ∨ s = "INVALID" ∨ s = "PROCESSING" ∨ s = "PROCESSED"

/-- The sum of the accruals of the PROCESSED orders owned by customer `c`. -/
def creditsOf (orders : List OrderRow) (c : String) : ℚ :=
  ((orders.filter (fun o => o.status = "PROCESSED" ∧ o.user_id = c)).map
    (fun o => o.accrual)).sum

/-- The cumulative processed-order credits of customer `c`. -/
def DB.processedCredits (db : DB) (c : String) : ℚ := creditsOf db.orders c

/-- Every customer has available balance 0 and withdrawn total 0. -/
def ZeroBalances (users : List UserRow) : Prop :=
  ∀ u ∈ users, u.current_balance = 0 ∧ u.withdrawn = 0

/-- Every balance read from the store has at most two decimal places, and no
available balance is negative. -/
def DB.CentBalances (db : DB) : Prop :=
  ∀ c u, db.user c = some u →
    twoDecimals u.current_balance ∧ twoDecimals u.withdrawn ∧ 0 ≤ u.current_balance

/-! ## The system as a state machine -/

/-- One step of the running system: an order submission served by
`UploadOrderHandler`, a withdrawal request served by `WithdrawHandler`, or one
reconciliation cycle of the worker, each with the faults the store shows during
it; a cycle also carries the answers of the accrual authority. -/
inductive Step where
  | submit (r : UploadRequest) (f : Faults) (now : Nat)
  | withdraw (r : WithdrawHTTPRequest) (f : Faults) (now : Nat)
  | cycle (authority : GoString → Exchange) (qf : Faults) (faults : GoString → Faults)

/-- The store after one step. -/
def Step.apply (db : DB) : Step → DB
  | .submit r f now => (UploadOrderHandler (orderSvc f now) r db).2
  | .withdraw r f now => (WithdrawHandler (withdrawalSvc f now) r db).2
  | .cycle authority qf faults =>
    (AccrualWorker.processBatch AccrualWorker.batchSize authority qf faults db).2.db

/-- The store after a sequence of steps. -/
def run (db : DB) (steps : List Step) : DB := steps.foldl Step.apply db

/-- The store of a fresh deployment with the given registered customers: no
orders, no withdrawals. -/
def initialDB (users : List UserRow) : DB := ⟨users, [], []⟩

/-- In a withdrawal request, the sum has at most two decimal places; the other
steps satisfy this vacuously. -/
def Step.centSums : Step → Prop
  | .withdraw r _ _ => ∀ req, r.decoded = some req → twoDecimals req.Sum
  | _ => True

/-- In a reconciliation cycle, every decoded answer of the accrual authority
carries one of the statuses documented in service/accrual.go; the other steps
satisfy this vacuously. -/
def Step.documented : Step → Prop
  | .cycle authority _ _ =>
    ∀ n resp, AccrualClient.GetOrder (authority n) = .ok resp → documentedStatus resp.Status
  | _ => True

/-! ## Sample data -/

/-- A store with one customer and five pending orders (numbers 18, 26, 34, 42,
59), submitted in that order. -/
def fiveOrders : DB :=
  ⟨[⟨"u1", 0, 0⟩],
   [⟨"u1", ascii "18", "NEW", 0, 1⟩, ⟨"u1", ascii "26", "NEW", 0, 2⟩,
    ⟨"u1", ascii "34", "NEW", 0, 3⟩, ⟨"u1", ascii "42", "NEW", 0, 4⟩,
    ⟨"u1", ascii "59", "NEW", 0, 5⟩],
   []⟩

/-- An accrual authority that answers "too many requests" for order 26 and
"PROCESSING" for every other order. -/
def limitedOn26 : GoString → Exchange :=
  fun n => if n = ascii "26" then .response 429 none else .response 200 (some ⟨n, "PROCESSING", 0⟩)

/-- A store with one customer and the pending order 79927398713. -/
def oneOrder : DB := ⟨[⟨"u1", 0, 0⟩], [⟨"u1", ascii "79927398713", "NEW", 0, 3⟩], []⟩

/-- An accrual authority that reports every order processed with 15.50. -/
def processed1550 : GoString → Exchange :=
  fun n => .response 200 (some ⟨n, "PROCESSED", 31 / 2⟩)

/-- An accrual authority that reports every order invalid. -/
def allInvalid : GoString → Exchange :=
  fun n => .response 200 (some ⟨n, "INVALID", 0⟩)

/-- A submission of order 79927398713 by customer u1. -/
def submit79927398713 : Step :=
  .submit ⟨"POST", some "u1", ascii "79927398713"⟩ noFaults 3

/-- An accrual authority whose answers carry the status "FOO". -/
def answersFOO : GoString → Exchange :=
  fun n => .response 200 (some ⟨n, "FOO", 0⟩)

/-- An accrual authority that reports every order processed with 0.001. -/
def processedTenthOfCent : GoString → Exchange :=
  fun n => .response 200 (some ⟨n, "PROCESSED", 1 / 1000⟩)

/-- A withdrawal request of customer u1 for 0.005, labelled with order 18. -/
def withdrawHalfCent : Step :=
  .withdraw ⟨"POST", some "u1", some ⟨ascii "18", 1 / 200⟩⟩ noFaults 9

/-- A withdrawal request of customer u1 for 5, labelled with order 18. -/
def withdraw5 : Step :=
  .withdraw ⟨"POST", some "u1", some ⟨ascii "18", 5⟩⟩ noFaults 9

/-! ## The column type NUMERIC(10,2) -/

theorem twoDecimals_zero : twoDecimals 0 := ⟨0, by simp⟩

theorem twoDecimals_add (x y : ℚ) (hx : twoDecimals x) (hy : twoDecimals y) :
    twoDecimals (x + y) := by
  obtain ⟨k, rfl⟩ := hx
  obtain ⟨l, rfl⟩ := hy
  exact ⟨k + l, by push_cast; ring⟩

theorem twoDecimals_sub (x y : ℚ) (hx : twoDecimals x) (hy : twoDecimals y) :
    twoDecimals (x - y) := by
  obtain ⟨k, rfl⟩ := hx
  obtain ⟨l, rfl⟩ := hy
  exact ⟨k - l, by push_cast; ring⟩

/-- What a column of scale 2 stores has two decimals. -/
theorem twoDecimals_round2 (x : ℚ) : twoDecimals (round2 x) := by
  unfold round2
  split
  · exact ⟨⌊x * 100 + 1 / 2⌋, rfl⟩
  · exact ⟨-⌊-x * 100 + 1 / 2⌋, by push_cast; ring⟩

theorem floor_int_add_half (k : ℤ) : ⌊(k : ℚ) + 1 / 2⌋ = k := by
  rw [Int.floor_eq_iff]
  constructor <;> norm_num

/-- An amount of two decimals is stored as it is. -/
theorem round2_of_twoDecimals (x : ℚ) (h : twoDecimals x) : round2 x = x := by
  obtain ⟨k, rfl⟩ := h
  unfold round2
  split
  · have : (k : ℚ) / 100 * 100 + 1 / 2 = (k : ℚ) + 1 / 2 := by ring
    rw [this, floor_int_add_half]
  · have : -((k : ℚ) / 100) * 100 + 1 / 2 = ((-k : ℤ) : ℚ) + 1 / 2 := by push_cast; ring
    rw [this, floor_int_add_half]
    push_cast; ring

theorem round2_nonneg (x : ℚ) (h : 0 ≤ x) : 0 ≤ round2 x := by
  unfold round2
  rw [if_pos h]
  apply div_nonneg _ (by norm_num)
  exact_mod_cast Int.floor_nonneg.mpr (by positivity)

/-- Adding to a stored amount that is not negative: the sum is stored as the
stored amount plus the rounded addend. -/
theorem round2_add_grid (a x : ℚ) (ha : twoDecimals a) (ha0 : 0 ≤ a) (hx : 0 ≤ x) :
    round2 (a + x) = a + round2 x := by
  obtain ⟨k, rfl⟩ := ha
  unfold round2
  rw [if_pos (add_nonneg ha0 hx), if_pos hx]
  have : ((k : ℚ) / 100 + x) * 100 + 1 / 2 = (k : ℚ) + (x * 100 + 1 / 2) := by ring
  rw [this, Int.floor_int_add]
  push_cast; ring

/-! ## The validator -/

theorem digit_byte_sub (b : Fin 256) (h : isDigit b = true) :
    (b.val + 256 - 48) % 256 = b.val - 48 ∧ b.val - 48 ≤ 9 := by
  simp only [isDigit, Bool.and_eq_true, decide_eq_true_eq] at h
  omega

/-- On digit bytes the loop of `validateLuhn` adds up the terms of the checksum. -/
theorem validateLuhn_loop_eq (l : List (Fin 256)) :
    ∀ (k : Nat) (double : Bool) (sum : Nat), (∀ b ∈ l, isDigit b = true) →
      double = decide (k % 2 = 1) →
      validateLuhn.loop l double sum
        = sum + ((l.enumFrom k).map (fun p => luhnTerm p.1 (p.2.val - 48))).sum := by
  induction l with
  | nil => intro k double sum _ _; simp [validateLuhn.loop]
  | cons b bytes ih =>
    intro k double sum hd hk
    have hb := digit_byte_sub b (hd b (List.mem_cons_self _ _))
    have hrest : ∀ c ∈ bytes, isDigit c = true := fun c hc => hd c (List.mem_cons_of_mem _ hc)
    have hk1 : (!double) = decide ((k + 1) % 2 = 1) := by
      subst hk
      rcases Nat.mod_two_eq_zero_or_one k with h0 | h1
      · have : (k + 1) % 2 = 1 := by omega
        simp [h0, this]
      · have : (k + 1) % 2 = 0 := by omega
        simp [h1, this]
    simp only [validateLuhn.loop, List.enumFrom_cons, List.map_cons, List.sum_cons]
    rw [ih (k + 1) (!double) _ hrest hk1, hb.1]
    have : (if double = true then
        (if (b.val - 48) * 2 > 9 then (b.val - 48) * 2 - 9 else (b.val - 48) * 2)
        else b.val - 48) = luhnTerm k (b.val - 48) := by
      subst hk
      unfold luhnTerm
      by_cases h1 : k % 2 = 1
      · simp only [h1, decide_True, if_true]
        split <;> split <;> omega
      · simp [h1]
    rw [this]
    omega

/-- On a string of digits `validateLuhn` decides validity in the sense of section 4.1. -/
theorem validateLuhn_iff_of_digits (s : GoString) (hd : ∀ b ∈ s, isDigit b = true) :
    validateLuhn s = true ↔ LuhnValid s := by
  have hrev : ∀ b ∈ s.reverse, isDigit b = true := fun b hb => hd b (List.mem_reverse.mp hb)
  have hloop := validateLuhn_loop_eq s.reverse 0 false 0 hrev (by simp)
  unfold validateLuhn LuhnValid luhnChecksum
  rw [hloop]
  by_cases hlen : s.length < 2
  · simp [hlen]
  · simp only [hlen, if_false, zero_add, beq_iff_eq, List.enum]
    constructor
    · intro h; exact ⟨by omega, hd, h⟩
    · intro h; exact h.2.2

/-- Every string valid in the sense of section 4.1 is accepted by `validateLuhn`. -/
theorem validateLuhn_of_luhnValid (s : GoString) (h : LuhnValid s) : validateLuhn s = true :=
  (validateLuhn_iff_of_digits s h.2.1).mpr h

set_option maxRecDepth 8192 in
/-- Claim C1 (fails on the code): `validateLuhn` accepts the two-byte string "0:",
whose second byte is not a decimal digit, so acceptance does not imply that all
characters are digits. -/
theorem validateLuhn_accepts_non_digit :
    validateLuhn (ascii "0:") = true ∧ (ascii "0:").length = 2 ∧
      ¬ (∀ b ∈ ascii "0:", isDigit b = true) ∧ ¬ LuhnValid (ascii "0:") := by
  decide

/-! ## Order intake -/

theorem parseUint_fold_none (l : GoString) :
    l.foldl (fun acc c =>
      match acc with
      | none => none
      | some n =>
        if isDigit c then
          (if n * 10 + (c.val - 48) < 2 ^ 64 then some (n * 10 + (c.val - 48)) else none)
        else none) (none : Option Nat) = none := by
  induction l with
  | nil => rfl
  | cons b l ih => simpa [List.foldl_cons] using ih

theorem parseUint_fold_digits (l : GoString) :
    ∀ (acc : Option Nat) (v : Nat),
      l.foldl (fun acc c =>
        match acc with
        | none => none
        | some n =>
          if isDigit c then
            (if n * 10 + (c.val - 48) < 2 ^ 64 then some (n * 10 + (c.val - 48)) else none)
          else none) acc = some v → ∀ b ∈ l, isDigit b = true := by
  induction l with
  | nil => intro _ _ _ b hb; cases hb
  | cons c l ih =>
    intro acc v h b hb
    rw [List.foldl_cons] at h
    cases acc with
    | none => simp only [parseUint_fold_none] at h; cases h
    | some n =>
      by_cases hc : isDigit c = true
      · rcases List.mem_cons.mp hb with rfl | hl
        · exact hc
        · exact ih _ v h b hl
      · simp only [hc, Bool.false_eq_true, if_false, parseUint_fold_none] at h; cases h

/-- A string accepted by `strconv.ParseUint` consists of decimal digits. -/
theorem parseUint_digits (s : GoString) (v : Nat) (h : ParseUint s = some v) :
    ∀ b ∈ s, isDigit b = true := by
  unfold ParseUint at h
  split at h
  · cases h
  · exact parseUint_fold_digits s _ v h

/-- What `readOrderNumber` returns is the trimmed body, and it is a string of digits. -/
theorem readOrderNumber_ok (body number : GoString) (h : readOrderNumber body = .ok number) :
    number = TrimSpace body ∧ ∀ b ∈ number, isDigit b = true := by
  unfold readOrderNumber at h
  split at h
  · cases h
  · simp only at h
    split at h
    · cases h
    · split at h
      · cases h
      · rename_i v hv
        cases h
        exact ⟨rfl, parseUint_digits _ v hv⟩

/-- Claim C2: a submission whose order number (the trimmed body) fails the Luhn
check, be it the check of section 4.1 or the one `validateLuhn` computes, is
answered with a rejection (405, 401, 400 or 422; 400 or 422 once the method and
the user are in order) whatever the order service would do, so `Create` is not
called and the store stays as it was. -/
theorem uploadOrder_rejects_luhn_failure
    (create : String → GoString → DB → Option GoError × DB) (r : UploadRequest) (db : DB)
    (h : ¬ LuhnValid (TrimSpace r.Body) ∨ validateLuhn (TrimSpace r.Body) = false) :
    (UploadOrderHandler create r db).2 = db ∧
      (UploadOrderHandler create r db).1 ∈
        [Response.status 405, Response.status 401, Response.status 400, Response.status 422] ∧
      (r.Method = "POST" → r.userID.isSome = true →
        (UploadOrderHandler create r db).1 ∈ [Response.status 400, Response.status 422]) := by
  unfold UploadOrderHandler
  by_cases hm : r.Method = "POST"
  · simp only [hm, ne_eq, not_true_eq_false, if_false]
    cases hu : r.userID with
    | none => simp
    | some userID =>
      simp only
      cases hr : readOrderNumber r.Body with
      | error e => simp
      | ok number =>
        simp only
        obtain ⟨hn, hd⟩ := readOrderNumber_ok _ _ hr
        have hv : validateLuhn number = false := by
          rcases h with h | h
          · cases hval : validateLuhn number with
            | false => rfl
            | true => exact absurd ((validateLuhn_iff_of_digits number hd).mp hval) (hn ▸ h)
          · rw [hn]; exact h
        simp [hv]
  · simp [hm]

set_option maxRecDepth 8192 in
/-- Witness for claim C2: the order number 1234567812345678 of section 8. -/
theorem uploadOrder_rejects_luhn_failure_witness :
    validateLuhn (TrimSpace (ascii "1234567812345678")) = false ∧
      (UploadOrderHandler (orderSvc noFaults 0) ⟨"POST", some "u1", ascii "1234567812345678"⟩
          ⟨[⟨"u1", 0, 0⟩], [], []⟩).2 = ⟨[⟨"u1", 0, 0⟩], [], []⟩ :=
  ⟨by decide,
   (uploadOrder_rejects_luhn_failure (orderSvc noFaults 0)
      ⟨"POST", some "u1", ascii "1234567812345678"⟩ ⟨[⟨"u1", 0, 0⟩], [], []⟩
      (Or.inr (by decide))).1⟩

/-! ## Withdrawal intake -/

set_option maxRecDepth 16384 in
/-- Claim C3 (fails on the code): a withdrawal whose order number "0:" contains a
character that is no digit passes `WithdrawHandler`, which calls
`WithdrawalService.Create`: the balance is debited and a withdrawal recorded. -/
theorem withdraw_accepts_non_digit_order :
    ¬ (∀ b ∈ ascii "0:", isDigit b = true) ∧
      WithdrawHandler (withdrawalSvc noFaults 7) ⟨"POST", some "u1", some ⟨ascii "0:", 1⟩⟩
          ⟨[⟨"u1", 10, 0⟩], [], []⟩
        = (Response.status 200, ⟨[⟨"u1", 9, 1⟩], [], [⟨"u1", ascii "0:", 1, 7⟩]⟩) := by
  refine ⟨by decide, ?_⟩
  with_unfolding_all rfl


/-! ## Order store: submission -/

theorem order_eq_none_iff (db : DB) (n : GoString) :
    db.order n = none ↔ ∀ o ∈ db.orders, o.number ≠ n := by
  simp [DB.order, List.find?_eq_none]

/-- Under the uniqueness constraint, looking an order up by its number finds that row. -/
theorem find_number_of_mem (orders : List OrderRow) (o : OrderRow)
    (hu : (orders.map (fun o => o.number)).Nodup) (ho : o ∈ orders) :
    orders.find? (fun x => x.number = o.number) = some o := by
  induction orders with
  | nil => cases ho
  | cons x xs ih =>
    rw [List.map_cons, List.nodup_cons] at hu
    rcases List.mem_cons.mp ho with rfl | hxs
    · simp
    · have hne : x.number ≠ o.number := by
        intro he
        exact hu.1 (he ▸ List.mem_map_of_mem (fun o => o.number) hxs)
      rw [List.find?_cons_of_neg _ (by simpa using hne)]
      exact ih hu.2 hxs

theorem order_of_mem (db : DB) (o : OrderRow) (hu : db.UniqueNumbers) (ho : o ∈ db.orders) :
    db.order o.number = some o :=
  find_number_of_mem db.orders o hu ho

theorem hasUser_any (db : DB) (c : String) (h : db.HasUser c) :
    db.users.any (fun u => u.id = c) = true := by
  obtain ⟨u, hu, hc⟩ := h
  exact List.any_eq_true.mpr ⟨u, hu, by simpa using hc⟩

/-- A failed `OrderService.Create` leaves the store as it was. -/
theorem orderCreate_error_unchanged (db : DB) (f : Faults) (now : Nat) (c : String)
    (n : GoString) (h : (OrderService.Create db f now c n).1 ≠ none) :
    (OrderService.Create db f now c n).2 = db := by
  revert h
  unfold OrderService.Create
  repeat' split
  all_goals simp

/-- Claim C4: `OrderService.Create(c, n)`, with the store answering every call,
(1) returns nil and appends exactly the row (owner c, number n, status NEW) when
no order has number n and c is a registered customer; (2) returns
`ErrOrderAlreadyExistsByUser` and leaves the store as it was when the order with
number n is owned by c; (3) returns `ErrOrderAlreadyExistsByOther` and leaves the
store as it was when it is owned by someone else; (4) after an accepted
submission, submitting n again is answered by (2) for c and by (3) for any other
customer, the store staying as the first submission left it. -/
theorem orderCreate_contract (db : DB) (now : Nat) (c : String) (n : GoString) :
    ((∀ o ∈ db.orders, o.number ≠ n) → db.HasUser c →
      OrderService.Create db noFaults now c n
        = (none, { db with orders := db.orders ++ [⟨c, n, "NEW", 0, now⟩] })) ∧
    (∀ o ∈ db.orders, db.UniqueNumbers → o.number = n → o.user_id = c →
      OrderService.Create db noFaults now c n = (some ErrOrderAlreadyExistsByUser, db)) ∧
    (∀ o ∈ db.orders, db.UniqueNumbers → o.number = n → o.user_id ≠ c →
      OrderService.Create db noFaults now c n = (some ErrOrderAlreadyExistsByOther, db)) ∧
    ((∀ o ∈ db.orders, o.number ≠ n) → db.HasUser c → ∀ (later : Nat) (c' : String),
      OrderService.Create (OrderService.Create db noFaults now c n).2 noFaults later c' n
        = (some (if c' = c then ErrOrderAlreadyExistsByUser else ErrOrderAlreadyExistsByOther),
           (OrderService.Create db noFaults now c n).2)) := by
  have fresh : (∀ o ∈ db.orders, o.number ≠ n) → db.HasUser c →
      OrderService.Create db noFaults now c n
        = (none, { db with orders := db.orders ++ [⟨c, n, "NEW", 0, now⟩] }) := by
    intro hn hc
    have h1 := (order_eq_none_iff db n).mpr hn
    have h2 := hasUser_any db c hc
    simp [OrderService.Create, noFaults, h1, h2]
  refine ⟨fresh, ?_, ?_, ?_⟩
  · intro o ho hu hn hc
    have h1 := order_of_mem db o hu ho
    rw [hn] at h1
    simp [OrderService.Create, noFaults, h1, hc]
  · intro o ho hu hn hc
    have h1 := order_of_mem db o hu ho
    rw [hn] at h1
    simp [OrderService.Create, noFaults, h1, hc]
  · intro hn hc later c'
    rw [fresh hn hc]
    have h1 : DB.order { db with orders := db.orders ++ [⟨c, n, "NEW", 0, now⟩] } n
        = some ⟨c, n, "NEW", 0, now⟩ := by
      have h0 : db.orders.find? (fun o => o.number = n) = none := (order_eq_none_iff db n).mpr hn
      simp [DB.order, List.find?_append, h0]
    by_cases hcc : c' = c
    · subst hcc
      simp [OrderService.Create, noFaults, h1]
    · have hcc' : ¬ c = c' := fun h => hcc h.symm
      simp [OrderService.Create, noFaults, h1, hcc, hcc']

set_option maxRecDepth 8192 in
/-- Witness for claim C4: customer u1 submits 79927398713 to an empty order
table; the order is recorded with status NEW. -/
theorem orderCreate_contract_witness :
    OrderService.Create ⟨[⟨"u1", 0, 0⟩], [], []⟩ noFaults 3 "u1" (ascii "79927398713")
      = (none, ⟨[⟨"u1", 0, 0⟩], [⟨"u1", ascii "79927398713", "NEW", 0, 3⟩], []⟩) :=
  (orderCreate_contract ⟨[⟨"u1", 0, 0⟩], [], []⟩ 3 "u1" (ascii "79927398713")).1
    (by decide) (by decide)

/-! ## Balance ledger: debit -/

theorem find_debitRows (users : List UserRow) (c c' : String) (m : ℚ) :
    (debitRows users c m).find? (fun u => u.id = c')
      = (users.find? (fun u => u.id = c')).map (fun u =>
          if u.id = c then
            { u with current_balance := round2 (u.current_balance - m),
                     withdrawn := round2 (u.withdrawn + m) }
          else u) := by
  induction users with
  | nil => rfl
  | cons u us ih =>
    by_cases hc : u.id = c <;> by_cases hc' : u.id = c' <;>
      simp_all [debitRows, List.find?_cons]

/-- Under the primary key, looking a customer up by id finds that row. -/
theorem find_id_of_mem (users : List UserRow) (u : UserRow)
    (hk : (users.map (fun u => u.id)).Nodup) (hu : u ∈ users) :
    users.find? (fun x => x.id = u.id) = some u := by
  induction users with
  | nil => cases hu
  | cons x xs ih =>
    rw [List.map_cons, List.nodup_cons] at hk
    rcases List.mem_cons.mp hu with rfl | hxs
    · simp
    · have hne : x.id ≠ u.id := by
        intro he
        exact hk.1 (he ▸ List.mem_map_of_mem (fun u => u.id) hxs)
      rw [List.find?_cons_of_neg _ (by simpa using hne)]
      exact ih hk.2 hxs

/-- Under the primary key, the row of a customer is the only row with that id. -/
theorem user_unique (db : DB) (c : String) (u v : UserRow) (hk : db.UniqueUserIds)
    (hu : db.user c = some u) (hv : v ∈ db.users) (hc : v.id = c) : v = u := by
  have h := find_id_of_mem db.users v hk hv
  rw [hc] at h
  have hu' : db.users.find? (fun x => x.id = c) = some u := hu
  rw [hu'] at h
  exact (Option.some.inj h).symm

set_option maxRecDepth 16384 in
/-- Claim C5 (fails on the code): a customer holding 10.00 withdraws 0.005.  The
call succeeds; the columns being NUMERIC(10,2), the available balance is stored
as 10.00 again (not 9.995), the withdrawn total as 0.01 and the record as 0.01
(not 0.005).  And a customer holding 10.00 who has withdrawn 99999999.99 so far
withdraws 0.01: the new total does not fit the column, the call fails although
the balance covers the sum and no call to the store met a fault, and the store
is as before. -/
theorem withdrawal_of_half_cent_is_rounded :
    DB.available ⟨[⟨"u1", 10, 0⟩], [], []⟩ "u1" = some 10 ∧
    WithdrawalService.Create ⟨[⟨"u1", 10, 0⟩], [], []⟩ noFaults 1 "u1" (ascii "18") (1 / 200)
      = (none, ⟨[⟨"u1", 10, 1 / 100⟩], [], [⟨"u1", ascii "18", 1 / 100, 1⟩]⟩) ∧
    (10 : ℚ) - 1 / 200 ≠ 10 ∧ (0 : ℚ) + 1 / 200 ≠ 1 / 100 ∧
    WithdrawalService.Create ⟨[⟨"u1", 10, 9999999999 / 100⟩], [], []⟩ noFaults 1 "u1" (ascii "18")
        (1 / 100)
      = (some (fmtErrorf "service/withdrawal.go:51" "update balance" numericOverflow),
          ⟨[⟨"u1", 10, 9999999999 / 100⟩], [], []⟩) := by
  refine ⟨by with_unfolding_all rfl, by with_unfolding_all rfl, by norm_num, by norm_num,
    by with_unfolding_all rfl⟩

/-- Claim C5 as amended: let c be an existing customer (the one row with that id)
whose available balance a and withdrawn total w are stored with two decimals,
and let the store answer every call.  (1) For an amount m of at most two
decimals with m <= a, such that m, a - m and w + m fit NUMERIC(10,2),
`WithdrawalService.Create(c, label, m)` returns nil, leaves c with available
a - m and withdrawn w + m, appends exactly the record (c, label, m), and touches
no order and no other customer.  (2) For every amount m with a < m it returns
the error "insufficient funds" and leaves the whole store as it was. -/
theorem withdrawalCreate_cents (db : DB) (now : Nat) (c : String) (label : GoString)
    (a w m : ℚ) (hk : db.UniqueUserIds) (ha : db.available c = some a)
    (hw : db.withdrawnTotal c = some w) (hta : twoDecimals a) (htw : twoDecimals w) :
    (m ≤ a → twoDecimals m → fitsNumeric m → fitsNumeric (a - m) → fitsNumeric (w + m) →
      (WithdrawalService.Create db noFaults now c label m).1 = none ∧
      (WithdrawalService.Create db noFaults now c label m).2.available c = some (a - m) ∧
      (WithdrawalService.Create db noFaults now c label m).2.withdrawnTotal c = some (w + m) ∧
      (WithdrawalService.Create db noFaults now c label m).2.withdrawals
        = db.withdrawals ++ [⟨c, label, m, now⟩] ∧
      (WithdrawalService.Create db noFaults now c label m).2.orders = db.orders ∧
      (∀ c', c' ≠ c →
        (WithdrawalService.Create db noFaults now c label m).2.user c' = db.user c')) ∧
    (a < m →
      (WithdrawalService.Create db noFaults now c label m).1.map GoError.Error
        = some "insufficient funds" ∧
      (WithdrawalService.Create db noFaults now c label m).2 = db) := by
  unfold DB.available at ha
  unfold DB.withdrawnTotal at hw
  cases hu : db.user c with
  | none => simp [hu] at ha
  | some u =>
    simp only [hu, Option.map_some', Option.some.injEq] at ha hw
    have hid : u.id = c := by
      have := List.find?_some hu
      simpa using this
    have hu' : db.users.find? (fun u => u.id = c) = some u := hu
    constructor
    · intro hm htm hfm hfa hfw
      have hlt : ¬ u.current_balance < m := by rw [ha]; exact not_lt.mpr hm
      have hfit : debitFits db.users c m := by
        intro v hv hvc
        have := user_unique db c u v hk hu hv hvc
        subst this
        rw [ha, hw]
        exact ⟨hfa, hfw⟩
      have hres : WithdrawalService.Create db noFaults now c label m
          = (none, ⟨debitRows db.users c m, db.orders,
              db.withdrawals ++ [⟨c, label, m, now⟩]⟩) := by
        simp [WithdrawalService.Create, noFaults, hu, hlt, hfm, hfit,
          round2_of_twoDecimals m htm]
      rw [hres]
      simp only [DB.available, DB.withdrawnTotal, DB.user, find_debitRows, true_and]
      refine ⟨?_, ?_, ?_⟩
      · simp [hu', hid, ha, round2_of_twoDecimals _ (twoDecimals_sub a m hta htm)]
      · simp [hu', hid, hw, round2_of_twoDecimals _ (twoDecimals_add w m htw htm)]
      · intro c' hc'
        cases hf : db.users.find? (fun u => u.id = c') with
        | none => simp
        | some v =>
          have hv : v.id = c' := by
            have := List.find?_some hf
            simpa using this
          have : ¬ v.id = c := by rw [hv]; exact hc'
          simp [this]
    · intro hm
      have hlt : u.current_balance < m := by rw [ha]; exact hm
      simp [WithdrawalService.Create, noFaults, hu, hlt, errorsNew, GoError.Error]

set_option maxRecDepth 16384 in
/-- Witness for the amended claim C5: a customer holding 100.00 withdraws 60.25. -/
theorem withdrawalCreate_cents_witness :
    (WithdrawalService.Create ⟨[⟨"u1", 100, 0⟩], [], []⟩ noFaults 1 "u1" (ascii "18")
        (241 / 4)).1 = none ∧
      (WithdrawalService.Create ⟨[⟨"u1", 100, 0⟩], [], []⟩ noFaults 1 "u1" (ascii "18")
        (241 / 4)).2.available "u1" = some (100 - 241 / 4) ∧
      (WithdrawalService.Create ⟨[⟨"u1", 100, 0⟩], [], []⟩ noFaults 1 "u1" (ascii "18")
        (241 / 4)).2.withdrawals = [⟨"u1", ascii "18", 241 / 4, 1⟩] :=
  have h := (withdrawalCreate_cents ⟨[⟨"u1", 100, 0⟩], [], []⟩ 1 "u1" (ascii "18") 100 0
    (241 / 4) (by decide) (by simp [DB.available, DB.user])
    (by simp [DB.withdrawnTotal, DB.user]) ⟨10000, by norm_num⟩ ⟨0, by norm_num⟩).1
    (by norm_num) ⟨6025, by norm_num⟩ (by with_unfolding_all decide)
    (by with_unfolding_all decide) (by with_unfolding_all decide)
  ⟨h.1, h.2.1, h.2.2.2.1⟩

/-- The error `WithdrawalService.Create` returns is never the object that
`WithdrawHandler` allocates for the comparison. -/
theorem withdrawalCreate_error_not_target (db : DB) (f : Faults) (now : Nat) (c : String)
    (label : GoString) (m : ℚ) (e : GoError)
    (h : (WithdrawalService.Create db f now c label m).1 = some e) :
    errorsIs e (errorsNew "handler/withdrawal.go:44" "insufficient funds") = false := by
  unfold WithdrawalService.Create at h
  cases hu : db.user c with
  | none =>
    simp only [hu] at h
    split_ifs at h <;> simp only [Option.some.injEq] at h <;> subst h <;> decide
  | some u =>
    simp only [hu] at h
    split_ifs at h <;> simp only [Option.some.injEq, reduceCtorEq] at h <;> subst h <;> decide

/-- `WithdrawHandler` built on the withdrawal service never answers 402. -/
theorem withdrawHandler_never_402 (f : Faults) (now : Nat) (r : WithdrawHTTPRequest) (db : DB) :
    (WithdrawHandler (withdrawalSvc f now) r db).1 ≠ Response.status 402 := by
  unfold WithdrawHandler
  by_cases hm : r.Method = "POST"
  · simp only [hm, ne_eq, not_true_eq_false, if_false]
    cases hu : r.userID with
    | none => simp
    | some userID =>
      cases hd : r.decoded with
      | none => simp
      | some req =>
        simp only
        by_cases h1 : req.Order = [] ∨ req.Sum ≤ 0
        · simp [h1]
        · by_cases h2 : validateLuhn req.Order = true
          · simp only [h1, h2, if_false, Bool.not_true, Bool.false_eq_true]
            cases hc : withdrawalSvc f now userID req.Order req.Sum db with
            | mk e db' =>
              cases e with
              | none => simp
              | some err =>
                have := withdrawalCreate_error_not_target db f now userID req.Order req.Sum err
                  (by unfold withdrawalSvc at hc; rw [hc])
                simp [this]
          · simp [h1, h2]
  · simp [hm]

set_option maxRecDepth 8192 in
/-- Claim C6 (fails on the code): a customer holding 0 asks to withdraw 1 against
order 79927398713; `WithdrawalService.Create` reports "insufficient funds", and
`WithdrawHandler` answers 500, the status of a store failure, not 402. -/
theorem withdraw_insufficient_funds_is_500 :
    (WithdrawalService.Create ⟨[⟨"u1", 0, 0⟩], [], []⟩ noFaults 7 "u1" (ascii "79927398713")
        1).1.map GoError.Error = some "insufficient funds" ∧
      WithdrawHandler (withdrawalSvc noFaults 7)
          ⟨"POST", some "u1", some ⟨ascii "79927398713", 1⟩⟩ ⟨[⟨"u1", 0, 0⟩], [], []⟩
        = (Response.status 500, ⟨[⟨"u1", 0, 0⟩], [], []⟩) := by
  have hv : validateLuhn (ascii "79927398713") = true := by decide
  have hne : ascii "79927398713" ≠ [] := by decide
  have he : errorsIs (errorsNew "service/withdrawal.go:35" "insufficient funds")
      (errorsNew "handler/withdrawal.go:44" "insufficient funds") = false := by decide
  constructor
  · simp [WithdrawalService.Create, noFaults, DB.user, errorsNew, GoError.Error]
  · simp only [WithdrawHandler, withdrawalSvc, WithdrawalService.Create, noFaults, hv, hne,
      DB.user]
    norm_num [he]

/-! ## Order store: status transition and credit -/

/-- The row an order becomes under `UPDATE orders SET status [, accrual]`. -/
theorem updateOrderRows_eq_map (orders : List OrderRow) (n : GoString) (status : String)
    (accrual : Option ℚ) :
    updateOrderRows orders n status accrual
      = orders.map (fun o =>
          if o.number = n then
            { o with status := status, accrual := (accrual.map round2).getD o.accrual }
          else o) := by
  unfold updateOrderRows
  cases accrual <;> rfl

theorem updateOrderRows_numbers (orders : List OrderRow) (n : GoString) (status : String)
    (accrual : Option ℚ) :
    (updateOrderRows orders n status accrual).map (fun o => o.number)
      = orders.map (fun o => o.number) := by
  rw [updateOrderRows_eq_map, List.map_map]
  apply List.map_congr_left
  intro o _
  by_cases h : o.number = n <;> simp [h]

theorem find_updateOrderRows (orders : List OrderRow) (n n' : GoString) (status : String)
    (accrual : Option ℚ) :
    (updateOrderRows orders n status accrual).find? (fun o => o.number = n')
      = (orders.find? (fun o => o.number = n')).map (fun o =>
          if o.number = n then
            { o with status := status, accrual := (accrual.map round2).getD o.accrual }
          else o) := by
  rw [updateOrderRows_eq_map]
  induction orders with
  | nil => rfl
  | cons o os ih =>
    by_cases hc : o.number = n <;> by_cases hc' : o.number = n' <;>
      simp_all [List.find?_cons]

theorem find_creditRows (users : List UserRow) (c c' : String) (x : ℚ) :
    (creditRows users c x).find? (fun u => u.id = c')
      = (users.find? (fun u => u.id = c')).map (fun u =>
          if u.id = c then { u with current_balance := round2 (u.current_balance + x) }
          else u) := by
  induction users with
  | nil => rfl
  | cons u us ih =>
    by_cases hc : u.id = c <;> by_cases hc' : u.id = c' <;>
      simp_all [creditRows, List.find?_cons]

/-- A failed `OrderService.UpdateStatus` leaves the store as it was. -/
theorem updateStatus_error_unchanged (db : DB) (f : Faults) (n : GoString) (status : String)
    (accrual : Option ℚ) (h : (OrderService.UpdateStatus db f n status accrual).1 ≠ none) :
    (OrderService.UpdateStatus db f n status accrual).2 = db := by
  revert h
  unfold OrderService.UpdateStatus
  repeat' split
  all_goals first
    | (simp; done)
    | (dsimp only; split <;> simp; done)
    | (dsimp only; split <;> (try simp) <;> split <;> simp)

/-- The order found under its number after the update of `orders`. -/
theorem order_after_update (db : DB) (o : OrderRow) (status : String) (accrual : Option ℚ)
    (users : List UserRow) (hu : db.UniqueNumbers) (ho : o ∈ db.orders) :
    DB.order ⟨users, updateOrderRows db.orders o.number status accrual, db.withdrawals⟩ o.number
      = some { o with status := status, accrual := (accrual.map round2).getD o.accrual } := by
  have := find_number_of_mem db.orders o hu ho
  simp [DB.order, find_updateOrderRows, this]

/-- When `UpdateStatus(n, PROCESSED, x)` on an existing order returns nil, the
database has accepted the amount for the order and for the balance, and the
store carries both updates. -/
theorem updateStatus_processed_ok (db : DB) (f : Faults) (o : OrderRow) (x : ℚ)
    (hu : db.UniqueNumbers) (ho : o ∈ db.orders)
    (h : (OrderService.UpdateStatus db f o.number "PROCESSED" (some x)).1 = none) :
    fitsNumeric x ∧ creditFits db.users o.user_id x ∧
    (OrderService.UpdateStatus db f o.number "PROCESSED" (some x)).2
      = ⟨creditRows db.users o.user_id x,
         updateOrderRows db.orders o.number "PROCESSED" (some x), db.withdrawals⟩ := by
  have hfind := order_after_update db o "PROCESSED" (some x) db.users hu ho
  revert h
  simp only [OrderService.UpdateStatus, hfind, if_true]
  by_cases h1 : f .beginTx = true
  · simp [h1]
  by_cases h2 : f .updateOrder = true
  · simp [h1, h2]
  by_cases h3 : accrualFits db.orders o.number (some x)
  · by_cases h4 : f .selectOwnerAfterUpdate = true
    · simp [h1, h2, h3, h4]
    by_cases h5 : f .creditBalance = true
    · simp [h1, h2, h3, h4, h5]
    by_cases h6 : creditFits db.users o.user_id x
    · by_cases h7 : f .commit = true
      · simp [h1, h2, h3, h4, h5, h6, h7]
      · intro _
        refine ⟨h3 o ho rfl, h6, ?_⟩
        simp [h1, h2, h3, h4, h5, h6, h7]
    · simp [h1, h2, h3, h4, h5, h6]
  · simp [h1, h2, h3]

/-- With the store answering every call and accepting the amounts,
`UpdateStatus(n, PROCESSED, x)` on an existing order succeeds. -/
theorem updateStatus_processed_succeeds (db : DB) (o : OrderRow) (x : ℚ)
    (hu : db.UniqueNumbers) (ho : o ∈ db.orders) (hx : fitsNumeric x)
    (hc : creditFits db.users o.user_id x) :
    (OrderService.UpdateStatus db noFaults o.number "PROCESSED" (some x)).1 = none := by
  have hfind := order_after_update db o "PROCESSED" (some x) db.users hu ho
  have hacc : accrualFits db.orders o.number (some x) := fun _ _ _ => hx
  simp [OrderService.UpdateStatus, hfind, noFaults, hacc, hc]

/-- When the database does not accept the amount for the order or for the
balance, `UpdateStatus(n, PROCESSED, x)` leaves the store as it was. -/
theorem updateStatus_processed_refused (db : DB) (f : Faults) (o : OrderRow) (x : ℚ)
    (hu : db.UniqueNumbers) (ho : o ∈ db.orders)
    (h : ¬ (fitsNumeric x ∧ creditFits db.users o.user_id x)) :
    (OrderService.UpdateStatus db f o.number "PROCESSED" (some x)).2 = db := by
  apply updateStatus_error_unchanged
  intro hnone
  obtain ⟨h1, h2, _⟩ := updateStatus_processed_ok db f o x hu ho hnone
  exact h ⟨h1, h2⟩

set_option maxRecDepth 16384 in
/-- Claim C8 (fails on the code): order 79927398713 of customer u1, who holds
0.00, is reported processed with 0.001.  `UpdateStatus` returns nil; the columns
being NUMERIC(10,2), the accrual is stored as 0.00 (not 0.001) and the balance
stays 0.00 (it does not grow by 0.001).  And for the amount 100000000, which
does not fit the column, `UpdateStatus` fails although no call to the store met
a fault, and the store is as before. -/
theorem updateStatus_of_tenth_of_cent_is_rounded :
    DB.available oneOrder "u1" = some 0 ∧
    OrderService.UpdateStatus oneOrder noFaults (ascii "79927398713") "PROCESSED"
        (some (1 / 1000))
      = (none, ⟨[⟨"u1", 0, 0⟩], [⟨"u1", ascii "79927398713", "PROCESSED", 0, 3⟩], []⟩) ∧
    (0 : ℚ) ≠ 1 / 1000 ∧ (0 : ℚ) + 1 / 1000 ≠ 0 ∧
    OrderService.UpdateStatus oneOrder noFaults (ascii "79927398713") "PROCESSED"
        (some 100000000)
      = (some (fmtErrorf "service/order.go:113" "update order" numericOverflow), oneOrder) := by
  refine ⟨by with_unfolding_all rfl, by with_unfolding_all rfl, by norm_num, by norm_num,
    by with_unfolding_all rfl⟩

/-- Claim C8 as amended: let o be an existing order (number n, owner c, c the one
row with that id) and a the available balance of c.  (1) For an amount x of at
most two decimals and a stored with two decimals: when
`UpdateStatus(n, PROCESSED, x)` returns nil, the order with number n is o with
status PROCESSED and accrual x, the available balance of c is a + x, its
withdrawn total, every other customer, every other order and the withdrawals
are as before.  (2) For every amount: when it returns an error, whichever call
failed, the whole store is as before.  (3) When x and a + x fit NUMERIC(10,2)
and the store answers every call, it returns nil. -/
theorem updateStatus_processed_cents (db : DB) (f : Faults) (o : OrderRow) (x a : ℚ)
    (hu : db.UniqueNumbers) (ho : o ∈ db.orders) (hk : db.UniqueUserIds)
    (ha : db.available o.user_id = some a) :
    (twoDecimals x → twoDecimals a →
      (OrderService.UpdateStatus db f o.number "PROCESSED" (some x)).1 = none →
      (OrderService.UpdateStatus db f o.number "PROCESSED" (some x)).2.order o.number
        = some { o with status := "PROCESSED", accrual := x } ∧
      (OrderService.UpdateStatus db f o.number "PROCESSED" (some x)).2.available o.user_id
        = some (a + x) ∧
      (OrderService.UpdateStatus db f o.number "PROCESSED" (some x)).2.withdrawnTotal o.user_id
        = db.withdrawnTotal o.user_id ∧
      (∀ c', c' ≠ o.user_id →
        (OrderService.UpdateStatus db f o.number "PROCESSED" (some x)).2.user c' = db.user c') ∧
      (∀ o' ∈ db.orders, o'.number ≠ o.number →
        o' ∈ (OrderService.UpdateStatus db f o.number "PROCESSED" (some x)).2.orders) ∧
      (OrderService.UpdateStatus db f o.number "PROCESSED" (some x)).2.withdrawals
        = db.withdrawals) ∧
    ((OrderService.UpdateStatus db f o.number "PROCESSED" (some x)).1 ≠ none →
      (OrderService.UpdateStatus db f o.number "PROCESSED" (some x)).2 = db) ∧
    (fitsNumeric x → fitsNumeric (a + x) →
      (OrderService.UpdateStatus db noFaults o.number "PROCESSED" (some x)).1 = none) := by
  have hfo := find_number_of_mem db.orders o hu ho
  unfold DB.available at ha
  cases hcu : db.user o.user_id with
  | none => simp [hcu] at ha
  | some u =>
    simp only [hcu, Option.map_some', Option.some.injEq] at ha
    have hcu' : db.users.find? (fun u => u.id = o.user_id) = some u := hcu
    have hid : u.id = o.user_id := by
      have := List.find?_some hcu'
      simpa using this
    refine ⟨?_, updateStatus_error_unchanged db f _ _ _, ?_⟩
    · intro htx hta hok
      rw [(updateStatus_processed_ok db f o x hu ho hok).2.2]
      refine ⟨?_, ?_, ?_, ?_, ?_, rfl⟩
      · simp [DB.order, find_updateOrderRows, hfo, round2_of_twoDecimals x htx]
      · simp [DB.available, DB.user, find_creditRows, hcu', hid, ha,
          round2_of_twoDecimals _ (twoDecimals_add a x hta htx)]
      · simp [DB.withdrawnTotal, DB.user, find_creditRows, hcu', hid]
      · intro c' hc'
        simp only [DB.user, find_creditRows]
        cases hf : db.users.find? (fun u => u.id = c') with
        | none => simp
        | some v =>
          have hv : v.id = c' := by
            have := List.find?_some hf
            simpa using this
          have : ¬ v.id = o.user_id := by rw [hv]; exact hc'
          simp [this]
      · intro o' ho' hne
        simp only [updateOrderRows_eq_map]
        exact List.mem_map.mpr ⟨o', ho', by simp [hne]⟩
    · intro hfx hfa
      apply updateStatus_processed_succeeds db o x hu ho hfx
      intro v hv hvc
      have := user_unique db o.user_id u v hk hcu hv hvc
      subst this
      rw [ha]; exact hfa

set_option maxRecDepth 16384 in
/-- Witness for the amended claim C8: order 79927398713 of customer u1 is reported
processed with 15.50; the balance of u1 goes from 0 to 15.50. -/
theorem updateStatus_processed_cents_witness :
    (OrderService.UpdateStatus oneOrder noFaults (ascii "79927398713") "PROCESSED"
        (some (31 / 2))).1 = none ∧
      (OrderService.UpdateStatus oneOrder noFaults (ascii "79927398713") "PROCESSED"
        (some (31 / 2))).2.available "u1" = some (0 + 31 / 2) ∧
      (OrderService.UpdateStatus oneOrder noFaults (ascii "79927398713") "PROCESSED"
        (some (31 / 2))).2.order (ascii "79927398713")
        = some ⟨"u1", ascii "79927398713", "PROCESSED", 31 / 2, 3⟩ :=
  have h := updateStatus_processed_cents oneOrder noFaults
    ⟨"u1", ascii "79927398713", "NEW", 0, 3⟩ (31 / 2) 0
    (by decide) (by simp [oneOrder]) (by decide) (by simp [DB.available, DB.user, oneOrder])
  have hok := h.2.2 (by with_unfolding_all decide) (by with_unfolding_all decide)
  have hres := h.1 ⟨1550, by norm_num⟩ ⟨0, by norm_num⟩ hok
  ⟨hok, hres.2.1, hres.1⟩

/-! ## Reconciliation cycle -/

/-- Looking a number up after a row-wise change that keeps numbers. -/
theorem find_map_keep (orders : List OrderRow) (h : OrderRow → OrderRow)
    (hk : ∀ r, (h r).number = r.number) (n : GoString) :
    (orders.map h).find? (fun o => o.number = n)
      = (orders.find? (fun o => o.number = n)).map h := by
  induction orders with
  | nil => rfl
  | cons o os ih =>
    by_cases hc : o.number = n
    · simp [List.find?_cons, hk, hc]
    · simp [List.find?_cons, hk, hc, ih]

/-- The store after `UpdateStatus`: as before; or with the rows of that number
updated and no credit (the status is not PROCESSED or no accrual is given); or
with the rows updated and the owner of the order credited. -/
theorem updateStatus_shape (db : DB) (f : Faults) (n : GoString) (status : String)
    (accrual : Option ℚ) :
    (OrderService.UpdateStatus db f n status accrual).2 = db ∨
    ((status ≠ "PROCESSED" ∨ accrual = none) ∧
      (OrderService.UpdateStatus db f n status accrual).2
        = ⟨db.users, updateOrderRows db.orders n status accrual, db.withdrawals⟩) ∨
    (∃ x o, accrual = some x ∧ status = "PROCESSED" ∧
      (updateOrderRows db.orders n status accrual).find? (fun r => r.number = n) = some o ∧
      (OrderService.UpdateStatus db f n status accrual).2
        = ⟨creditRows db.users o.user_id x, updateOrderRows db.orders n status accrual,
            db.withdrawals⟩) := by
  unfold OrderService.UpdateStatus
  by_cases h1 : f .beginTx = true
  · simp [h1]
  by_cases h2 : f .updateOrder = true
  · simp [h1, h2]
  by_cases hfit : accrualFits db.orders n accrual
  swap
  · simp [h1, h2, hfit]
  simp only [h1, h2, hfit, not_true_eq_false, Bool.false_eq_true, if_false]
  cases accrual with
  | none =>
    by_cases h3 : f .commit = true
    · simp [h3]
    · right; left; simp [h3]
  | some x =>
    by_cases hs : status = "PROCESSED"
    · subst hs
      simp only [if_true]
      by_cases h4 : f .selectOwnerAfterUpdate = true
      · simp [h4]
      simp only [h4, Bool.false_eq_true, if_false]
      cases hfind : DB.order ⟨db.users, updateOrderRows db.orders n "PROCESSED" (some x),
          db.withdrawals⟩ n with
      | none => simp
      | some o =>
        simp only
        by_cases h5 : f .creditBalance = true
        · simp [h5]
        by_cases h6 : creditFits db.users o.user_id x
        swap
        · simp [h5, h6]
        by_cases h3 : f .commit = true
        · simp [h5, h6, h3]
        · right; right
          exact ⟨x, o, by simp, by simp, hfind, by simp [h5, h6, h3]⟩
    · simp only [hs, if_false]
      by_cases h3 : f .commit = true
      · simp [h3]
      · right; left; simp [h3, hs]

/-- The orders after `UpdateStatus` are the orders before with the rows of that
number changed by a function that keeps their numbers. -/
theorem updateStatus_orders_map (db : DB) (f : Faults) (n : GoString) (status : String)
    (accrual : Option ℚ) :
    ∃ g : OrderRow → OrderRow, (∀ r, (g r).number = r.number) ∧
      (OrderService.UpdateStatus db f n status accrual).2.orders
        = db.orders.map (fun r => if r.number = n then g r else r) := by
  rcases updateStatus_shape db f n status accrual with h | ⟨_, h⟩ | ⟨x, o, _, _, _, h⟩
  · refine ⟨id, fun _ => rfl, ?_⟩
    rw [h]
    conv_lhs => rw [← List.map_id db.orders]
    apply List.map_congr_left
    intro o _
    by_cases h : o.number = n <;> simp [h]
  · refine ⟨fun r => { r with status := status, accrual := (accrual.map round2).getD r.accrual },
      fun _ => rfl, ?_⟩
    rw [h, updateOrderRows_eq_map]
  · refine ⟨fun r => { r with status := status, accrual := (accrual.map round2).getD r.accrual },
      fun _ => rfl, ?_⟩
    rw [h, updateOrderRows_eq_map]

/-- The loop body looks at the number of the order only. -/
theorem processOrder_congr (authority : GoString → Exchange) (faults : GoString → Faults)
    (st : CycleState) (x o : OrderRow) (h : x.number = o.number) :
    AccrualWorker.processOrder authority faults st x
      = AccrualWorker.processOrder authority faults st o := by
  unfold AccrualWorker.processOrder
  rw [h]

theorem processOrder_queried (authority : GoString → Exchange) (faults : GoString → Faults)
    (st : CycleState) (o : OrderRow) :
    (AccrualWorker.processOrder authority faults st o).queried = st.queried ++ [o.number] := by
  unfold AccrualWorker.processOrder
  split
  · split_ifs <;> rfl
  · rfl

theorem processOrder_ok_db (authority : GoString → Exchange) (faults : GoString → Faults)
    (st : CycleState) (o : OrderRow) (resp : AccrualResponse)
    (h : AccrualClient.GetOrder (authority o.number) = .ok resp) :
    (AccrualWorker.processOrder authority faults st o).db
      = (OrderService.UpdateStatus st.db (faults o.number) o.number
          (AccrualWorker.transition resp).1 (AccrualWorker.transition resp).2).2 := by
  unfold AccrualWorker.processOrder
  simp only [h]

theorem processOrder_error_db (authority : GoString → Exchange) (faults : GoString → Faults)
    (st : CycleState) (o : OrderRow) (e : GoError)
    (h : AccrualClient.GetOrder (authority o.number) = .error e) :
    (AccrualWorker.processOrder authority faults st o).db = st.db := by
  unfold AccrualWorker.processOrder
  simp only [h]
  split_ifs <;> rfl

/-- One iteration of the loop leaves the store as it was or applies one
`UpdateStatus` with the status and accrual of `transition`. -/
theorem processOrder_cases (authority : GoString → Exchange) (faults : GoString → Faults)
    (st : CycleState) (o : OrderRow) :
    (AccrualWorker.processOrder authority faults st o).db = st.db ∨
    ∃ resp, AccrualClient.GetOrder (authority o.number) = .ok resp ∧
      (AccrualWorker.processOrder authority faults st o).db
        = (OrderService.UpdateStatus st.db (faults o.number) o.number
            (AccrualWorker.transition resp).1 (AccrualWorker.transition resp).2).2 := by
  cases hg : AccrualClient.GetOrder (authority o.number) with
  | error e => exact Or.inl (processOrder_error_db authority faults st o e hg)
  | ok resp =>
    exact Or.inr ⟨resp, rfl, processOrder_ok_db authority faults st o resp hg⟩

/-- The orders after one iteration are the orders before with the rows of that
number changed by a function that keeps their numbers. -/
theorem processOrder_orders_map (authority : GoString → Exchange) (faults : GoString → Faults)
    (st : CycleState) (o : OrderRow) :
    ∃ g : OrderRow → OrderRow, (∀ r, (g r).number = r.number) ∧
      (AccrualWorker.processOrder authority faults st o).db.orders
        = st.db.orders.map (fun r => if r.number = o.number then g r else r) := by
  rcases processOrder_cases authority faults st o with h | ⟨resp, _, h⟩
  · refine ⟨id, fun _ => rfl, ?_⟩
    rw [h]
    conv_lhs => rw [← List.map_id st.db.orders]
    apply List.map_congr_left
    intro r _
    by_cases h : r.number = o.number <;> simp [h]
  · rw [h]
    exact updateStatus_orders_map st.db (faults o.number) o.number _ _

theorem processOrder_order_frame (authority : GoString → Exchange) (faults : GoString → Faults)
    (st : CycleState) (o : OrderRow) (n : GoString) (hn : n ≠ o.number) :
    (AccrualWorker.processOrder authority faults st o).db.order n = st.db.order n := by
  obtain ⟨g, hk, hg⟩ := processOrder_orders_map authority faults st o
  unfold DB.order
  rw [hg, find_map_keep _ _ (by intro r; by_cases h : r.number = o.number <;> simp [h, hk])]
  cases hf : st.db.orders.find? (fun x => x.number = n) with
  | none => rfl
  | some r =>
    have hr : r.number = n := by
      have := List.find?_some hf
      simpa using this
    have : ¬ r.number = o.number := by rw [hr]; exact hn
    simp [this]

theorem processOrder_mem_frame (authority : GoString → Exchange) (faults : GoString → Faults)
    (st : CycleState) (o r : OrderRow) (hr : r ∈ st.db.orders) (hn : r.number ≠ o.number) :
    r ∈ (AccrualWorker.processOrder authority faults st o).db.orders := by
  obtain ⟨g, _, hg⟩ := processOrder_orders_map authority faults st o
  rw [hg]
  exact List.mem_map.mpr ⟨r, hr, by simp [hn]⟩

theorem processOrder_numbers (authority : GoString → Exchange) (faults : GoString → Faults)
    (st : CycleState) (o : OrderRow) :
    (AccrualWorker.processOrder authority faults st o).db.orders.map (fun r => r.number)
      = st.db.orders.map (fun r => r.number) := by
  obtain ⟨g, hk, hg⟩ := processOrder_orders_map authority faults st o
  rw [hg, List.map_map]
  apply List.map_congr_left
  intro r _
  by_cases h : r.number = o.number <;> simp [h, hk]

/-! ### The whole loop -/

theorem loop_queried (authority : GoString → Exchange) (faults : GoString → Faults)
    (l : List OrderRow) : ∀ st : CycleState,
    (l.foldl (AccrualWorker.processOrder authority faults) st).queried
      = st.queried ++ l.map (fun o => o.number) := by
  induction l with
  | nil => intro st; simp
  | cons x xs ih =>
    intro st
    rw [List.foldl_cons, ih, processOrder_queried]
    simp

theorem loop_numbers (authority : GoString → Exchange) (faults : GoString → Faults)
    (l : List OrderRow) : ∀ st : CycleState,
    (l.foldl (AccrualWorker.processOrder authority faults) st).db.orders.map (fun r => r.number)
      = st.db.orders.map (fun r => r.number) := by
  induction l with
  | nil => intro st; rfl
  | cons x xs ih =>
    intro st
    rw [List.foldl_cons, ih, processOrder_numbers]

theorem loop_order_frame (authority : GoString → Exchange) (faults : GoString → Faults)
    (l : List OrderRow) (n : GoString) (hn : ∀ o ∈ l, n ≠ o.number) : ∀ st : CycleState,
    (l.foldl (AccrualWorker.processOrder authority faults) st).db.order n = st.db.order n := by
  induction l with
  | nil => intro st; rfl
  | cons x xs ih =>
    intro st
    rw [List.foldl_cons, ih (fun o ho => hn o (List.mem_cons_of_mem _ ho)),
      processOrder_order_frame _ _ _ _ _ (hn x (List.mem_cons_self _ _))]

theorem loop_mem_frame (authority : GoString → Exchange) (faults : GoString → Faults)
    (l : List OrderRow) (r : OrderRow) (hn : ∀ o ∈ l, r.number ≠ o.number) :
    ∀ st : CycleState, r ∈ st.db.orders →
      r ∈ (l.foldl (AccrualWorker.processOrder authority faults) st).db.orders := by
  induction l with
  | nil => intro st h; exact h
  | cons x xs ih =>
    intro st h
    rw [List.foldl_cons]
    exact ih (fun o ho => hn o (List.mem_cons_of_mem _ ho)) _
      (processOrder_mem_frame _ _ _ _ _ h (hn x (List.mem_cons_self _ _)))

/-- In a batch of orders with distinct numbers, when the turn of an order comes
it is still the row it was, and its row after the loop is its row after its own
turn. -/
theorem loop_row (authority : GoString → Exchange) (faults : GoString → Faults) (db : DB)
    (pre post : List OrderRow) (o : OrderRow) (hu : db.UniqueNumbers) (ho : o ∈ db.orders)
    (hnd : ((pre ++ o :: post).map (fun r => r.number)).Nodup) :
    (pre.foldl (AccrualWorker.processOrder authority faults) ⟨db, []⟩).db.UniqueNumbers ∧
    o ∈ (pre.foldl (AccrualWorker.processOrder authority faults) ⟨db, []⟩).db.orders ∧
    ((pre ++ o :: post).foldl (AccrualWorker.processOrder authority faults) ⟨db, []⟩).db.order
        o.number
      = (AccrualWorker.processOrder authority faults
          (pre.foldl (AccrualWorker.processOrder authority faults) ⟨db, []⟩) o).db.order
          o.number := by
  rw [List.map_append, List.map_cons] at hnd
  obtain ⟨_, h2, h3⟩ := List.nodup_append.mp hnd
  have hpre : ∀ r ∈ pre, o.number ≠ r.number := by
    intro r hr he
    exact h3 (List.mem_map_of_mem (fun r => r.number) hr) (by rw [← he]; exact List.mem_cons_self _ _)
  have hpost : ∀ r ∈ post, o.number ≠ r.number := by
    intro r hr he
    exact (List.nodup_cons.mp h2).1 (by rw [he]; exact List.mem_map_of_mem (fun r => r.number) hr)
  refine ⟨?_, loop_mem_frame authority faults pre o hpre ⟨db, []⟩ ho, ?_⟩
  · unfold DB.UniqueNumbers
    rw [loop_numbers]
    exact hu
  · rw [List.foldl_append, List.foldl_cons, loop_order_frame authority faults post o.number hpost]

/-! ### The batch -/

theorem getUnprocessed_mem (db : DB) (qf : Faults) (limit : Nat) (batch : List OrderRow)
    (h : OrderService.GetUnprocessed db qf limit = .ok batch) (o : OrderRow) (ho : o ∈ batch) :
    o ∈ db.orders ∧ (o.status = "NEW" ∨ o.status = "PROCESSING") := by
  unfold OrderService.GetUnprocessed at h
  split at h
  · cases h
  · cases h
    have h1 := List.mem_of_mem_take ho
    have h2 := (List.perm_insertionSort _ _).subset h1
    have h3 := List.mem_filter.mp h2
    exact ⟨h3.1, by simpa using h3.2⟩

theorem getUnprocessed_nodup (db : DB) (qf : Faults) (limit : Nat) (batch : List OrderRow)
    (hu : db.UniqueNumbers) (h : OrderService.GetUnprocessed db qf limit = .ok batch) :
    (batch.map (fun o => o.number)).Nodup := by
  unfold OrderService.GetUnprocessed at h
  split at h
  · cases h
  · cases h
    have h1 : ((db.orders.filter (fun o => o.status = "NEW" ∨ o.status = "PROCESSING")).map
        (fun o => o.number)).Nodup :=
      List.Nodup.sublist ((List.filter_sublist _).map _) hu
    have h2 := ((List.perm_insertionSort (fun a b : OrderRow => a.uploaded_at ≤ b.uploaded_at)
      (db.orders.filter (fun o => o.status = "NEW" ∨ o.status = "PROCESSING"))).map
        (fun o => o.number)).nodup_iff.mpr h1
    exact List.Nodup.sublist ((List.take_sublist _ _).map _) h2

theorem processBatch_ok (batchSize : Nat) (authority : GoString → Exchange) (qf : Faults)
    (faults : GoString → Faults) (db : DB) (batch : List OrderRow)
    (h : OrderService.GetUnprocessed db qf batchSize = .ok batch) :
    AccrualWorker.processBatch batchSize authority qf faults db
      = (none, batch.foldl (AccrualWorker.processOrder authority faults) ⟨db, []⟩) := by
  unfold AccrualWorker.processBatch
  rw [h]

theorem processBatch_error (batchSize : Nat) (authority : GoString → Exchange) (qf : Faults)
    (faults : GoString → Faults) (db : DB) (e : GoError)
    (h : OrderService.GetUnprocessed db qf batchSize = .error e) :
    (AccrualWorker.processBatch batchSize authority qf faults db).2 = ⟨db, []⟩ := by
  unfold AccrualWorker.processBatch
  rw [h]

/-! ### The transition table -/

theorem transition_table (resp : AccrualResponse) :
    ((resp.Status = "REGISTERED" ∨ resp.Status = "PROCESSING") →
      AccrualWorker.transition resp = ("PROCESSING", none)) ∧
    (resp.Status = "INVALID" → AccrualWorker.transition resp = ("INVALID", none)) ∧
    (resp.Status = "PROCESSED" → 0 < resp.Accrual →
      AccrualWorker.transition resp = ("PROCESSED", some resp.Accrual)) ∧
    (resp.Status = "PROCESSED" → resp.Accrual ≤ 0 →
      AccrualWorker.transition resp = ("INVALID", none)) := by
  refine ⟨?_, ?_, ?_, ?_⟩
  · rintro (h | h) <;> simp [AccrualWorker.transition, h]
  · intro h; simp [AccrualWorker.transition, h]
  · intro h hpos; simp [AccrualWorker.transition, h, hpos]
  · intro h hle; simp [AccrualWorker.transition, h, not_lt.mpr hle]

/-- An accrual is handed to `UpdateStatus` only together with the status
PROCESSED, and it is above 0. -/
theorem transition_accrual (resp : AccrualResponse) :
    (∀ x, (AccrualWorker.transition resp).2 = some x →
      0 < x ∧ (AccrualWorker.transition resp).1 = "PROCESSED") ∧
    ((AccrualWorker.transition resp).2 = none →
      (AccrualWorker.transition resp).1 ≠ "PROCESSED") := by
  unfold AccrualWorker.transition
  by_cases hp : resp.Status = "PROCESSED"
  · by_cases ha : resp.Accrual > 0
    · simp [hp, ha]
    · simp [hp, ha]
  · by_cases hi : resp.Status = "INVALID"
    · simp [hi]
    · by_cases hr : resp.Status = "REGISTERED" ∨ resp.Status = "PROCESSING"
      · simp [hp, hi, hr]
      · simp [hp, hi, hr]

/-- With the store answering every call, `UpdateStatus` without an accrual
writes the status to the order of that number. -/
theorem updateStatus_noFaults_status (db : DB) (o : OrderRow) (status : String)
    (hu : db.UniqueNumbers) (ho : o ∈ db.orders) :
    (OrderService.UpdateStatus db noFaults o.number status none).2.order o.number
      = some { o with status := status } := by
  have : (OrderService.UpdateStatus db noFaults o.number status none).2
      = ⟨db.users, updateOrderRows db.orders o.number status none, db.withdrawals⟩ := by
    simp [OrderService.UpdateStatus, noFaults, accrualFits]
  rw [this]
  exact order_after_update db o status none db.users hu ho

/-- The row of an existing order after its turn in the loop, the store answering
every call made for it: the status of `transition` when no accrual goes with it;
status PROCESSED and the accrual as NUMERIC(10,2) stores it when the database
accepts the accrual and the new balance of the owner; the row as it was when the
database does not accept them, or when the query of the gateway failed. -/
theorem processOrder_row (authority : GoString → Exchange) (faults : GoString → Faults)
    (st : CycleState) (o : OrderRow) (hu : st.db.UniqueNumbers) (ho : o ∈ st.db.orders)
    (hf : faults o.number = noFaults) :
    (∀ resp, AccrualClient.GetOrder (authority o.number) = .ok resp →
      (∀ status, AccrualWorker.transition resp = (status, none) →
        (AccrualWorker.processOrder authority faults st o).db.order o.number
          = some { o with status := status }) ∧
      (∀ status x, AccrualWorker.transition resp = (status, some x) →
        (fitsNumeric x ∧ creditFits st.db.users o.user_id x →
          (AccrualWorker.processOrder authority faults st o).db.order o.number
            = some { o with status := "PROCESSED", accrual := round2 x }) ∧
        (¬ (fitsNumeric x ∧ creditFits st.db.users o.user_id x) →
          (AccrualWorker.processOrder authority faults st o).db.order o.number = some o))) ∧
    (∀ e, AccrualClient.GetOrder (authority o.number) = .error e →
      (AccrualWorker.processOrder authority faults st o).db.order o.number = some o) := by
  refine ⟨fun resp hg => ⟨fun status ht => ?_, fun status x ht => ?_⟩, fun e he => ?_⟩
  · rw [processOrder_ok_db authority faults st o resp hg, hf, ht]
    exact updateStatus_noFaults_status st.db o status hu ho
  · have hs : status = "PROCESSED" := by
      have := ((transition_accrual resp).1 x (by rw [ht])).2
      rw [ht] at this
      exact this
    subst hs
    rw [processOrder_ok_db authority faults st o resp hg, hf, ht]
    dsimp only
    refine ⟨fun hfit => ?_, fun hno => ?_⟩
    · rw [(updateStatus_processed_ok st.db noFaults o x hu ho
        (updateStatus_processed_succeeds st.db o x hu ho hfit.1 hfit.2)).2.2]
      exact order_after_update st.db o "PROCESSED" (some x) _ hu ho
    · rw [updateStatus_processed_refused st.db noFaults o x hu ho hno]
      exact order_of_mem st.db o hu ho
  · rw [processOrder_error_db authority faults st o e he]
    exact order_of_mem st.db o hu ho

set_option maxRecDepth 16384 in
/-- Claim C7 (fails on the code): the pending order 79927398713 is reported
PROCESSED with the amount 0.001, which is above 0.  After `processBatch` the
order is PROCESSED with accrual 0.00, the column being NUMERIC(10,2): the accrual
is not that amount. -/
theorem processBatch_of_tenth_of_cent_is_rounded :
    oneOrder.order (ascii "79927398713") = some ⟨"u1", ascii "79927398713", "NEW", 0, 3⟩ ∧
    processedTenthOfCent (ascii "79927398713")
      = .response 200 (some ⟨ascii "79927398713", "PROCESSED", 1 / 1000⟩) ∧
    (AccrualWorker.processBatch AccrualWorker.batchSize processedTenthOfCent noFaults
        (fun _ => noFaults) oneOrder).2.db.order (ascii "79927398713")
      = some ⟨"u1", ascii "79927398713", "PROCESSED", 0, 3⟩ ∧
    (0 : ℚ) < 1 / 1000 ∧ (0 : ℚ) ≠ 1 / 1000 := by
  refine ⟨by with_unfolding_all rfl, by with_unfolding_all rfl, by with_unfolding_all rfl,
    by norm_num, by norm_num⟩

/-- Claim C7 as amended: let o be an order of the batch of a reconciliation cycle
(so o is pending: NEW or PROCESSING), the batch being pre, o, post, and let the
store answer every call made for o.  After `processBatch` the order with the
number of o is: o with status PROCESSING when the gateway answered REGISTERED or
PROCESSING; o with status INVALID when it answered INVALID; when it answered
PROCESSED with an amount x above 0, o with status PROCESSED and x rounded to two
decimals as accrual (x itself when x has at most two decimals) if x and the new
balance of the owner, in the store as the orders of pre have left it, fit
NUMERIC(10,2), and o itself if they do not; o with status INVALID and its accrual
untouched when it answered PROCESSED with amount 0; and o itself when the query
was rate limited (429), not registered (204) or failed otherwise. -/
theorem processBatch_transitions_cents (batchSize : Nat) (authority : GoString → Exchange)
    (qf : Faults) (faults : GoString → Faults) (db : DB) (pre post : List OrderRow)
    (o : OrderRow) (hu : db.UniqueNumbers)
    (hb : OrderService.GetUnprocessed db qf batchSize = .ok (pre ++ o :: post))
    (hf : faults o.number = noFaults) :
    (o.status = "NEW" ∨ o.status = "PROCESSING") ∧
    (∀ resp, authority o.number = .response 200 (some resp) →
      ((resp.Status = "REGISTERED" ∨ resp.Status = "PROCESSING") →
        (AccrualWorker.processBatch batchSize authority qf faults db).2.db.order o.number
          = some { o with status := "PROCESSING" }) ∧
      (resp.Status = "INVALID" →
        (AccrualWorker.processBatch batchSize authority qf faults db).2.db.order o.number
          = some { o with status := "INVALID" }) ∧
      (resp.Status = "PROCESSED" → 0 < resp.Accrual →
        (fitsNumeric resp.Accrual ∧
          creditFits (pre.foldl (AccrualWorker.processOrder authority faults) ⟨db, []⟩).db.users
            o.user_id resp.Accrual →
          (AccrualWorker.processBatch batchSize authority qf faults db).2.db.order o.number
            = some { o with status := "PROCESSED", accrual := round2 resp.Accrual } ∧
          (twoDecimals resp.Accrual →
            (AccrualWorker.processBatch batchSize authority qf faults db).2.db.order o.number
              = some { o with status := "PROCESSED", accrual := resp.Accrual })) ∧
        (¬ (fitsNumeric resp.Accrual ∧
          creditFits (pre.foldl (AccrualWorker.processOrder authority faults) ⟨db, []⟩).db.users
            o.user_id resp.Accrual) →
          (AccrualWorker.processBatch batchSize authority qf faults db).2.db.order o.number
            = some o)) ∧
      (resp.Status = "PROCESSED" → resp.Accrual = 0 →
        (AccrualWorker.processBatch batchSize authority qf faults db).2.db.order o.number
          = some { o with status := "INVALID" })) ∧
    (∀ d, authority o.number = .response 429 d →
      (AccrualWorker.processBatch batchSize authority qf faults db).2.db.order o.number
        = some o) ∧
    (∀ d, authority o.number = .response 204 d →
      (AccrualWorker.processBatch batchSize authority qf faults db).2.db.order o.number
        = some o) ∧
    (∀ e, AccrualClient.GetOrder (authority o.number) = .error e →
      (AccrualWorker.processBatch batchSize authority qf faults db).2.db.order o.number
        = some o) := by
  obtain ⟨hmem, hpending⟩ := getUnprocessed_mem db qf batchSize _ hb o (by simp)
  have hnd := getUnprocessed_nodup db qf batchSize _ hu hb
  obtain ⟨hu', ho', hself⟩ := loop_row authority faults db pre post o hu hmem hnd
  obtain ⟨hok, herr'⟩ := processOrder_row authority faults
    (pre.foldl (AccrualWorker.processOrder authority faults) ⟨db, []⟩) o hu' ho' hf
  rw [processBatch_ok batchSize authority qf faults db _ hb]
  dsimp only
  rw [hself]
  have herr := herr'
  refine ⟨hpending, ?_, ?_, ?_, herr⟩
  · intro resp hresp
    have hg : AccrualClient.GetOrder (authority o.number) = .ok resp := by
      rw [hresp]; simp [AccrualClient.GetOrder]
    obtain ⟨t1, t2, t3, t4⟩ := transition_table resp
    obtain ⟨hnone, hsome⟩ := hok resp hg
    refine ⟨fun h => hnone _ (t1 h), fun h => hnone _ (t2 h), fun h hpos => ?_,
      fun h hz => hnone _ (t4 h (le_of_eq hz))⟩
    obtain ⟨hyes, hno⟩ := hsome _ _ (t3 h hpos)
    refine ⟨fun hfit => ⟨hyes hfit, fun htd => ?_⟩, hno⟩
    rw [hyes hfit, round2_of_twoDecimals _ htd]
  · intro d hd
    exact herr (errorsNew "service/accrual.go:54" "rate limit exceeded")
      (by rw [hd]; simp [AccrualClient.GetOrder])
  · intro d hd
    exact herr (errorsNew "service/accrual.go:52" "order not registered")
      (by rw [hd]; simp [AccrualClient.GetOrder])

set_option maxRecDepth 16384 in
/-- Witness for the amended claim C7: the pending order 79927398713 is reported
processed with 15.50 and ends the cycle PROCESSED with accrual 15.50. -/
theorem processBatch_transitions_cents_witness :
    (AccrualWorker.processBatch AccrualWorker.batchSize processed1550 noFaults
        (fun _ => noFaults) oneOrder).2.db.order (ascii "79927398713")
      = some ⟨"u1", ascii "79927398713", "PROCESSED", 31 / 2, 3⟩ :=
  (((processBatch_transitions_cents AccrualWorker.batchSize processed1550 noFaults
    (fun _ => noFaults) oneOrder [] [] ⟨"u1", ascii "79927398713", "NEW", 0, 3⟩
    (by decide) (by rfl) rfl).2.1 ⟨ascii "79927398713", "PROCESSED", 31 / 2⟩ rfl).2.2.1
    rfl (by norm_num)).1 (by with_unfolding_all decide) |>.2 ⟨1550, by norm_num⟩

set_option maxRecDepth 8192 in
/-- Claim C9 (fails on the code): in a batch of five pending orders the gateway
answers "rate limited" for the second one (26) and PROCESSING for the others;
`processBatch` still queries the gateway for the third, fourth and fifth order
and moves each of them from NEW to PROCESSING. -/
theorem rate_limit_does_not_stop_batch :
    limitedOn26 (ascii "26") = .response 429 none ∧
    fiveOrders.orders.map (fun o => (o.number, o.status))
      = [(ascii "18", "NEW"), (ascii "26", "NEW"), (ascii "34", "NEW"), (ascii "42", "NEW"),
         (ascii "59", "NEW")] ∧
    (AccrualWorker.processBatch AccrualWorker.batchSize limitedOn26 noFaults
        (fun _ => noFaults) fiveOrders).2.queried
      = [ascii "18", ascii "26", ascii "34", ascii "42", ascii "59"] ∧
    (AccrualWorker.processBatch AccrualWorker.batchSize limitedOn26 noFaults
        (fun _ => noFaults) fiveOrders).2.db.orders.map (fun o => (o.number, o.status))
      = [(ascii "18", "PROCESSING"), (ascii "26", "NEW"), (ascii "34", "PROCESSING"),
         (ascii "42", "PROCESSING"), (ascii "59", "PROCESSING")] := by
  decide

/-- Claim C9 as amended: in a reconciliation cycle over the batch o1..on, the
gateway is queried for every order of the batch, in order, whatever it answers;
an order for which it answers "rate limited" is left as it was; and every other
order of the batch, those after a rate-limited one included, is handled as
usual: the store answering the calls made for it, an order o for which the
gateway answers REGISTERED or PROCESSING ends the cycle as o with status
PROCESSING, and one for which it answers INVALID, or PROCESSED with amount 0,
ends it as o with status INVALID. -/
theorem processBatch_rate_limit_skips_one (batchSize : Nat) (authority : GoString → Exchange)
    (qf : Faults) (faults : GoString → Faults) (db : DB) (batch : List OrderRow)
    (hu : db.UniqueNumbers) (hb : OrderService.GetUnprocessed db qf batchSize = .ok batch) :
    (AccrualWorker.processBatch batchSize authority qf faults db).2.queried
      = batch.map (fun o => o.number) ∧
    (∀ o ∈ batch, ∀ d, authority o.number = .response 429 d →
      (AccrualWorker.processBatch batchSize authority qf faults db).2.db.order o.number
        = some o) ∧
    (∀ o ∈ batch, faults o.number = noFaults →
      ∀ resp, authority o.number = .response 200 (some resp) →
      ((resp.Status = "REGISTERED" ∨ resp.Status = "PROCESSING") →
        (AccrualWorker.processBatch batchSize authority qf faults db).2.db.order o.number
          = some { o with status := "PROCESSING" }) ∧
      (resp.Status = "INVALID" ∨ (resp.Status = "PROCESSED" ∧ resp.Accrual = 0) →
        (AccrualWorker.processBatch batchSize authority qf faults db).2.db.order o.number
          = some { o with status := "INVALID" })) := by
  have hnd := getUnprocessed_nodup db qf batchSize batch hu hb
  have hrow : ∀ o ∈ batch, ∃ st : CycleState, st.db.UniqueNumbers ∧ o ∈ st.db.orders ∧
      (AccrualWorker.processBatch batchSize authority qf faults db).2.db.order o.number
        = (AccrualWorker.processOrder authority faults st o).db.order o.number := by
    intro o ho
    obtain ⟨pre, post, hbp⟩ := List.append_of_mem ho
    subst hbp
    obtain ⟨h1, h2, h3⟩ := loop_row authority faults db pre post o hu
      (getUnprocessed_mem db qf batchSize _ hb o ho).1 hnd
    refine ⟨_, h1, h2, ?_⟩
    rw [processBatch_ok batchSize authority qf faults db _ hb]
    exact h3
  refine ⟨?_, ?_, ?_⟩
  · rw [processBatch_ok batchSize authority qf faults db batch hb, loop_queried]
    rfl
  · intro o ho d hd
    obtain ⟨st, h1, h2, h3⟩ := hrow o ho
    rw [h3, processOrder_error_db authority faults st o
      (errorsNew "service/accrual.go:54" "rate limit exceeded")
      (by rw [hd]; simp [AccrualClient.GetOrder])]
    exact order_of_mem st.db o h1 h2
  · intro o ho hf resp hresp
    obtain ⟨st, h1, h2, h3⟩ := hrow o ho
    have hg : AccrualClient.GetOrder (authority o.number) = .ok resp := by
      rw [hresp]; simp [AccrualClient.GetOrder]
    obtain ⟨t1, t2, _, t4⟩ := transition_table resp
    obtain ⟨hnone, _⟩ := (processOrder_row authority faults st o h1 h2 hf).1 resp hg
    rw [h3]
    refine ⟨fun h => hnone _ (t1 h), fun h => ?_⟩
    rcases h with h | ⟨h, hz⟩
    · exact hnone _ (t2 h)
    · exact hnone _ (t4 h (le_of_eq hz))

set_option maxRecDepth 8192 in
/-- Witness for the amended claim C9: in the five-order batch with the second
order rate limited, all five orders are queried, order 26 stays NEW and order 34,
which comes after it, ends the cycle PROCESSING. -/
theorem processBatch_rate_limit_skips_one_witness :
    (AccrualWorker.processBatch AccrualWorker.batchSize limitedOn26 noFaults
        (fun _ => noFaults) fiveOrders).2.queried
      = fiveOrders.orders.map (fun o => o.number) ∧
    (AccrualWorker.processBatch AccrualWorker.batchSize limitedOn26 noFaults
        (fun _ => noFaults) fiveOrders).2.db.order (ascii "26")
      = some ⟨"u1", ascii "26", "NEW", 0, 2⟩ ∧
    (AccrualWorker.processBatch AccrualWorker.batchSize limitedOn26 noFaults
        (fun _ => noFaults) fiveOrders).2.db.order (ascii "34")
      = some ⟨"u1", ascii "34", "PROCESSING", 0, 3⟩ :=
  have h := processBatch_rate_limit_skips_one AccrualWorker.batchSize limitedOn26 noFaults
    (fun _ => noFaults) fiveOrders fiveOrders.orders (by decide) (by rfl)
  ⟨h.1,
   h.2.1 ⟨"u1", ascii "26", "NEW", 0, 2⟩ (by decide) none (by decide),
   (h.2.2 ⟨"u1", ascii "34", "NEW", 0, 3⟩ (by decide) rfl ⟨ascii "34", "PROCESSING", 0⟩
     (by decide)).1 (Or.inr rfl)⟩

/-! ## Terminal-state stability -/

/-- What `OrderService.Create` does to the store: nothing, or one new row under a
number that was not there. -/
theorem orderCreate_store (db : DB) (f : Faults) (now : Nat) (c : String) (n : GoString) :
    (OrderService.Create db f now c n).2 = db ∨
      ((OrderService.Create db f now c n).2
          = { db with orders := db.orders ++ [⟨c, n, "NEW", 0, now⟩] } ∧
        db.order n = none) := by
  unfold OrderService.Create
  split
  · exact Or.inl rfl
  · split
    · exact Or.inl rfl
    · split
      · split <;> exact Or.inl rfl
      · rename_i hnone
        split
        · exact Or.inl rfl
        · dsimp only
          split
          · exact Or.inl rfl
          · exact Or.inr ⟨rfl, hnone⟩

theorem uploadOrder_store (f : Faults) (now : Nat) (r : UploadRequest) (db : DB) :
    (UploadOrderHandler (orderSvc f now) r db).2 = db ∨
      ∃ c n, (UploadOrderHandler (orderSvc f now) r db).2
          = { db with orders := db.orders ++ [⟨c, n, "NEW", 0, now⟩] } ∧
        db.order n = none := by
  unfold UploadOrderHandler
  split
  · exact Or.inl rfl
  · split
    · exact Or.inl rfl
    · split
      · exact Or.inl rfl
      · split
        · exact Or.inl rfl
        · rename_i userID _ _ number _ _
          have hc := orderCreate_store db f now userID number
          have hsnd : ∀ (p : Option GoError × DB),
              (match p with
                | (some err, db') =>
                  if errorsIs err ErrOrderAlreadyExistsByUser = true then (Response.status 200, db')
                  else if errorsIs err ErrOrderAlreadyExistsByOther = true then
                    (Response.status 409, db')
                  else (Response.status 500, db')
                | (none, db') => (Response.status 202, db')).2 = p.2 := by
            rintro ⟨e, d⟩
            cases e with
            | none => rfl
            | some err => dsimp only; split_ifs <;> rfl
          rw [hsnd]
          unfold orderSvc
          rcases hc with h | h
          · exact Or.inl h
          · exact Or.inr ⟨userID, number, h⟩

theorem withdrawalCreate_orders (db : DB) (f : Faults) (now : Nat) (c : String)
    (label : GoString) (m : ℚ) :
    (WithdrawalService.Create db f now c label m).2.orders = db.orders := by
  unfold WithdrawalService.Create
  repeat' split
  all_goals first
    | rfl
    | (dsimp only; split_ifs <;> rfl)

/-- The store after `WithdrawHandler` is the store before, or what the service
left. -/
theorem withdrawHandler_store (create : String → GoString → ℚ → DB → Option GoError × DB)
    (r : WithdrawHTTPRequest) (db : DB) :
    (WithdrawHandler create r db).2 = db ∨
      ∃ userID req, r.userID = some userID ∧ r.decoded = some req ∧ 0 < req.Sum ∧
        validateLuhn req.Order = true ∧
        (WithdrawHandler create r db).2 = (create userID req.Order req.Sum db).2 := by
  unfold WithdrawHandler
  by_cases hm : r.Method = "POST"
  · simp only [hm, ne_eq, not_true_eq_false, if_false]
    cases hu : r.userID with
    | none => exact Or.inl rfl
    | some userID =>
      cases hd : r.decoded with
      | none => exact Or.inl rfl
      | some req =>
        simp only
        by_cases h1 : req.Order = [] ∨ req.Sum ≤ 0
        · simp [h1]
        · by_cases h2 : validateLuhn req.Order = true
          · simp only [h1, h2, if_false, Bool.not_true, Bool.false_eq_true]
            right
            refine ⟨userID, req, rfl, rfl, ?_, h2, ?_⟩
            · exact not_le.mp (fun h => h1 (Or.inr h))
            · cases hc : create userID req.Order req.Sum db with
              | mk e db' =>
                cases e with
                | none => rfl
                | some err => dsimp only; split_ifs <;> rfl
          · simp [h1, h2]
  · simp [hm]

theorem withdrawHandler_orders (f : Faults) (now : Nat) (r : WithdrawHTTPRequest) (db : DB) :
    (WithdrawHandler (withdrawalSvc f now) r db).2.orders = db.orders := by
  rcases withdrawHandler_store (withdrawalSvc f now) r db with h | ⟨u, req, _, _, _, _, h⟩
  · rw [h]
  · rw [h]
    exact withdrawalCreate_orders db f now u req.Order req.Sum

/-- Two rows of `orders` with the same number are the same row. -/
theorem row_eq_of_number (db : DB) (a b : OrderRow) (hu : db.UniqueNumbers)
    (ha : a ∈ db.orders) (hb : b ∈ db.orders) (h : a.number = b.number) : a = b := by
  have h1 := order_of_mem db a hu ha
  have h2 := order_of_mem db b hu hb
  rw [h, h2] at h1
  exact (Option.some.inj h1).symm

theorem processBatch_preserves (batchSize : Nat) (authority : GoString → Exchange)
    (qf : Faults) (faults : GoString → Faults) (db : DB) (hu : db.UniqueNumbers) :
    (AccrualWorker.processBatch batchSize authority qf faults db).2.db.UniqueNumbers ∧
    ∀ o ∈ db.orders, (o.status = "PROCESSED" ∨ o.status = "INVALID") →
      o ∈ (AccrualWorker.processBatch batchSize authority qf faults db).2.db.orders := by
  cases hb : OrderService.GetUnprocessed db qf batchSize with
  | error e =>
    rw [processBatch_error batchSize authority qf faults db e hb]
    exact ⟨hu, fun o ho _ => ho⟩
  | ok batch =>
    rw [processBatch_ok batchSize authority qf faults db batch hb]
    constructor
    · unfold DB.UniqueNumbers
      rw [loop_numbers]
      exact hu
    · intro o ho hterm
      apply loop_mem_frame authority faults batch o _ ⟨db, []⟩ ho
      intro b hbm he
      obtain ⟨hbdb, hpend⟩ := getUnprocessed_mem db qf batchSize batch hb b hbm
      have := row_eq_of_number db o b hu ho hbdb he
      subst this
      rcases hterm with h | h <;> rcases hpend with h' | h' <;> rw [h] at h' <;>
        exact absurd h' (by decide)

/-- Every step keeps the numbers of `orders` distinct and keeps every order
whose status is PROCESSED or INVALID exactly as it is. -/
theorem step_preserves (db : DB) (s : Step) (hu : db.UniqueNumbers) :
    (Step.apply db s).UniqueNumbers ∧
    ∀ o ∈ db.orders, (o.status = "PROCESSED" ∨ o.status = "INVALID") →
      o ∈ (Step.apply db s).orders := by
  cases s with
  | submit r f now =>
    simp only [Step.apply]
    rcases uploadOrder_store f now r db with h | ⟨c, n, h, hnone⟩
    · rw [h]; exact ⟨hu, fun o ho _ => ho⟩
    · rw [h]
      constructor
      · unfold DB.UniqueNumbers at hu ⊢
        simp only [List.map_append, List.map_cons, List.map_nil]
        rw [List.nodup_append]
        refine ⟨hu, List.nodup_singleton _, ?_⟩
        intro x hx hx'
        rw [List.mem_singleton] at hx'
        subst hx'
        obtain ⟨o, ho, hn⟩ := List.mem_map.mp hx
        exact (order_eq_none_iff db _).mp hnone o ho hn
      · intro o ho _
        exact List.mem_append_left _ ho
  | withdraw r f now =>
    simp only [Step.apply]
    have h := withdrawHandler_orders f now r db
    constructor
    · unfold DB.UniqueNumbers; rw [h]; exact hu
    · intro o ho _; rw [h]; exact ho
  | cycle authority qf faults =>
    simp only [Step.apply]
    exact processBatch_preserves _ authority qf faults db hu

theorem run_preserves (steps : List Step) : ∀ (db : DB), db.UniqueNumbers →
    (run db steps).UniqueNumbers ∧
    ∀ o ∈ db.orders, (o.status = "PROCESSED" ∨ o.status = "INVALID") →
      o ∈ (run db steps).orders := by
  induction steps with
  | nil => intro db hu; exact ⟨hu, fun o ho _ => ho⟩
  | cons s rest ih =>
    intro db hu
    obtain ⟨hu1, hk1⟩ := step_preserves db s hu
    obtain ⟨hu2, hk2⟩ := ih (Step.apply db s) hu1
    have hrun : run db (s :: rest) = run (Step.apply db s) rest := rfl
    rw [hrun]
    exact ⟨hu2, fun o ho ht => hk2 o (hk1 o ho ht) ht⟩

/-- Every store reached from a fresh deployment satisfies the uniqueness
constraint on order numbers. -/
theorem run_initial_unique (users : List UserRow) (steps : List Step) :
    (run (initialDB users) steps).UniqueNumbers :=
  (run_preserves steps (initialDB users) (by simp [DB.UniqueNumbers, initialDB])).1

/-- Claim C10: take any sequence of submissions, withdrawal requests and
reconciliation cycles from a fresh deployment, with arbitrary gateway answers
and store faults, and an order o whose status is PROCESSED or INVALID in the
store it leads to; after any further such sequence the order with the number of
o is still o: same status, same accrual, same owner. -/
theorem terminal_state_stable (users : List UserRow) (before after : List Step) (o : OrderRow)
    (ho : o ∈ (run (initialDB users) before).orders)
    (ht : o.status = "PROCESSED" ∨ o.status = "INVALID") :
    (run (run (initialDB users) before) after).order o.number = some o := by
  have hu := run_initial_unique users before
  obtain ⟨hu', hk⟩ := run_preserves after _ hu
  exact order_of_mem _ o hu' (hk o ho ht)

set_option maxRecDepth 8192 in
/-- Witness for claim C10: order 79927398713 is submitted and reported invalid;
a later cycle in which the gateway reports it processed with 15.50, and a
repeated submission, leave it INVALID. -/
theorem terminal_state_stable_witness :
    (run (run (initialDB [⟨"u1", 0, 0⟩]) [submit79927398713, .cycle allInvalid noFaults
        (fun _ => noFaults)])
      [.cycle processed1550 noFaults (fun _ => noFaults), submit79927398713]).order
        (ascii "79927398713")
      = some ⟨"u1", ascii "79927398713", "INVALID", 0, 3⟩ :=
  terminal_state_stable [⟨"u1", 0, 0⟩]
    [submit79927398713, .cycle allInvalid noFaults (fun _ => noFaults)]
    [.cycle processed1550 noFaults (fun _ => noFaults), submit79927398713]
    ⟨"u1", ascii "79927398713", "INVALID", 0, 3⟩ (by decide) (by decide)

/-! ## The validator: single-digit errors -/

/-- The loop of `validateLuhn` adds to the sum it is started with. -/
theorem validateLuhn_loop_add (l : List (Fin 256)) :
    ∀ (double : Bool) (sum : Nat),
      validateLuhn.loop l double sum = sum + validateLuhn.loop l double 0 := by
  induction l with
  | nil => intro _ _; simp [validateLuhn.loop]
  | cons b bytes ih =>
    intro double sum
    simp only [validateLuhn.loop]
    rw [ih (!double) (sum + _), ih (!double) (0 + _)]
    omega

/-- Running the loop over `l1 ++ l2` is running it over `l1` and then over `l2`
with the flag `double` that `l1` leaves, which depends on `l1` and the starting
flag only. -/
theorem validateLuhn_loop_append (l1 : List (Fin 256)) :
    ∀ (double : Bool), ∃ double' : Bool, ∀ (l2 : List (Fin 256)) (sum : Nat),
      validateLuhn.loop (l1 ++ l2) double sum
        = validateLuhn.loop l2 double' (validateLuhn.loop l1 double sum) := by
  induction l1 with
  | nil => intro double; exact ⟨double, fun _ _ => rfl⟩
  | cons b bytes ih =>
    intro double
    obtain ⟨d', hd'⟩ := ih (!double)
    refine ⟨d', fun l2 sum => ?_⟩
    simp only [List.cons_append, validateLuhn.loop]
    exact hd' l2 _

/-- What one digit contributes to the sum determines the digit modulo 10. -/
theorem luhn_digit_injective (double : Bool) (d e : Nat) (hd : d ≤ 9) (he : e ≤ 9)
    (h : (if double then (if d * 2 > 9 then d * 2 - 9 else d * 2) else d) % 10
       = (if double then (if e * 2 > 9 then e * 2 - 9 else e * 2) else e) % 10) :
    d = e := by
  cases double
  · simp only [Bool.false_eq_true, if_false] at h; omega
  · simp only [if_true] at h
    split_ifs at h <;> omega

/-- Claim C15: if `validateLuhn` accepts a string, it rejects every string
obtained from it by replacing one decimal digit (the byte `d` between `pre` and
`post`) with a different decimal digit `d'`.  The other bytes need not even be
digits. -/
theorem validateLuhn_detects_single_digit_error (pre post : GoString) (d d' : Fin 256)
    (hd : isDigit d = true) (hd' : isDigit d' = true) (hne : d ≠ d')
    (hv : validateLuhn (pre ++ d :: post) = true) :
    validateLuhn (pre ++ d' :: post) = false := by
  obtain ⟨dbl, hdbl⟩ := validateLuhn_loop_append post.reverse false
  have hsum : ∀ x : Fin 256, validateLuhn.loop (pre ++ x :: post).reverse false 0
      = validateLuhn.loop post.reverse false 0
        + (if dbl then (if (x.val + 256 - 48) % 256 * 2 > 9 then (x.val + 256 - 48) % 256 * 2 - 9
            else (x.val + 256 - 48) % 256 * 2) else (x.val + 256 - 48) % 256)
        + validateLuhn.loop pre.reverse (!dbl) 0 := by
    intro x
    have hrev : (pre ++ x :: post).reverse = post.reverse ++ x :: pre.reverse := by simp
    rw [hrev, hdbl]
    simp only [validateLuhn.loop]
    rw [validateLuhn_loop_add pre.reverse]
  have hlen : (pre ++ d' :: post).length = (pre ++ d :: post).length := by simp
  unfold validateLuhn at hv ⊢
  rw [hlen]
  by_cases hl : (pre ++ d :: post).length < 2
  · rw [if_pos hl]
  · simp only [hl, if_false, beq_iff_eq] at hv ⊢
    rw [hsum d] at hv
    rw [hsum d']
    have h1 := digit_byte_sub d hd
    have h2 := digit_byte_sub d' hd'
    rw [h1.1] at hv
    rw [h2.1]
    by_contra hcon
    have hcon' : (validateLuhn.loop post.reverse false 0
        + (if dbl then (if (d'.val - 48) * 2 > 9 then (d'.val - 48) * 2 - 9
            else (d'.val - 48) * 2) else (d'.val - 48))
        + validateLuhn.loop pre.reverse (!dbl) 0) % 10 = 0 := by
      simpa using hcon
    have hinj := luhn_digit_injective dbl (d.val - 48) (d'.val - 48) h1.2 h2.2 (by omega)
    apply hne
    apply Fin.ext
    simp only [isDigit, Bool.and_eq_true, decide_eq_true_eq] at hd hd'
    omega

set_option maxRecDepth 8192 in
/-- Witness for claim C15: 79927398713 is accepted, 79927398710 (last digit
replaced) is rejected. -/
theorem validateLuhn_detects_single_digit_error_witness :
    validateLuhn (ascii "79927398713") = true ∧ validateLuhn (ascii "79927398710") = false :=
  ⟨by decide,
   validateLuhn_detects_single_digit_error (ascii "7992739871") [] 51 48
     (by decide) (by decide) (by decide) (by decide)⟩

/-! ## Order intake: what `readOrderNumber` accepts -/

theorem decimal_fold_ge (l : GoString) : ∀ n : Nat,
    n ≤ l.foldl (fun n c => n * 10 + (c.val - 48)) n := by
  induction l with
  | nil => intro n; exact Nat.le_refl _
  | cons c l ih =>
    intro n
    rw [List.foldl_cons]
    exact Nat.le_trans (by omega) (ih _)

/-- The loop of `strconv.ParseUint` succeeds exactly on digits whose value fits
64 bits, and then returns that value. -/
theorem parseUint_fold_iff (l : GoString) : ∀ (n v : Nat),
    l.foldl (fun acc c =>
      match acc with
      | none => none
      | some n =>
        if isDigit c then
          (if n * 10 + (c.val - 48) < 2 ^ 64 then some (n * 10 + (c.val - 48)) else none)
        else none) (some n) = some v
    ↔ (∀ b ∈ l, isDigit b = true) ∧ l.foldl (fun n c => n * 10 + (c.val - 48)) n = v ∧
        (l ≠ [] → v < 2 ^ 64) := by
  induction l with
  | nil =>
    intro n v
    simp
  | cons c l ih =>
    intro n v
    rw [List.foldl_cons, List.foldl_cons]
    by_cases hc : isDigit c = true
    · by_cases hlt : n * 10 + (c.val - 48) < 2 ^ 64
      · simp only [hc, hlt, if_true]
        rw [ih]
        constructor
        · rintro ⟨h1, h2, h3⟩
          refine ⟨?_, h2, fun _ => ?_⟩
          · intro b hb
            rcases List.mem_cons.mp hb with rfl | hl
            · exact hc
            · exact h1 b hl
          · by_cases hl : l = []
            · subst hl
              simp only [List.foldl_nil] at h2
              omega
            · exact h3 hl
        · rintro ⟨h1, h2, h3⟩
          exact ⟨fun b hb => h1 b (List.mem_cons_of_mem _ hb), h2, fun _ => h3 (by simp)⟩
      · simp only [hc, hlt, if_true, if_false, parseUint_fold_none]
        constructor
        · intro h; cases h
        · rintro ⟨_, h2, h3⟩
          have := decimal_fold_ge l (n * 10 + (c.val - 48))
          have := h3 (by simp)
          omega
    · simp only [hc, Bool.false_eq_true, if_false, parseUint_fold_none]
      constructor
      · intro h; cases h
      · rintro ⟨h1, _, _⟩
        exact absurd (h1 c (List.mem_cons_self _ _)) hc

/-- The call `strconv.ParseUint(s, 10, 64)` succeeds exactly on the non-empty
strings of decimal digits whose value is below 2^64, and returns that value. -/
theorem parseUint_iff (s : GoString) (v : Nat) :
    ParseUint s = some v
      ↔ s ≠ [] ∧ (∀ b ∈ s, isDigit b = true) ∧ decimalValue s = v ∧ v < 2 ^ 64 := by
  unfold ParseUint decimalValue
  by_cases hs : s = []
  · simp [hs]
  · simp only [hs, if_false, ne_eq, not_false_eq_true, true_and]
    rw [parseUint_fold_iff]
    constructor
    · rintro ⟨h1, h2, h3⟩; exact ⟨h1, h2, h3 hs⟩
    · rintro ⟨h1, h2, h3⟩; exact ⟨h1, h2, fun _ => h3⟩

/-! ### White space -/

theorem asciiSpace_rune (b : Fin 256) (h : asciiSpace b = true) : [b] ∈ spaceRunes := by
  have hb : b = 9 ∨ b = 10 ∨ b = 11 ∨ b = 12 ∨ b = 13 ∨ b = 32 := by
    unfold asciiSpace at h
    simp only [Bool.or_eq_true, beq_iff_eq] at h
    rcases h with ((((h | h) | h) | h) | h) | h
    · exact Or.inl (Fin.ext h)
    · exact Or.inr (Or.inl (Fin.ext h))
    · exact Or.inr (Or.inr (Or.inl (Fin.ext h)))
    · exact Or.inr (Or.inr (Or.inr (Or.inl (Fin.ext h))))
    · exact Or.inr (Or.inr (Or.inr (Or.inr (Or.inl (Fin.ext h)))))
    · exact Or.inr (Or.inr (Or.inr (Or.inr (Or.inr (Fin.ext h)))))
  rcases hb with rfl | rfl | rfl | rfl | rfl | rfl <;> decide

theorem digit_not_space (d : Fin 256) (h : isDigit d = true) : asciiSpace d = false := by
  unfold isDigit at h
  unfold asciiSpace
  simp only [Bool.and_eq_true, decide_eq_true_eq] at h
  simp only [Bool.or_eq_false_iff, beq_eq_false_iff_ne, ne_eq]
  omega

theorem spaceRunes_pos : ∀ r ∈ spaceRunes, 1 ≤ r.length := by
  decide

/-- A white-space rune above U+007F starts, and ends, with a byte that is
neither an ASCII white space nor a digit. -/
theorem unicodeSpaces_head (rev : Bool) (e : GoString) (he : e ∈ unicodeSpaces) :
    ∃ b t, (if rev = true then e.reverse else e) = b :: t ∧ asciiSpace b = false ∧
      isDigit b = false := by
  have key : ∀ rev : Bool, ∀ e ∈ unicodeSpaces,
      ((if rev = true then e.reverse else e).head?.map
        (fun b => !asciiSpace b && !isDigit b)) = some true := by
    intro rev
    cases rev <;> decide
  have hk := key rev e he
  cases hl : (if rev = true then e.reverse else e) with
  | nil => rw [hl] at hk; cases hk
  | cons b t =>
    rw [hl] at hk
    simp only [List.head?_cons, Option.map_some', Option.some.injEq, Bool.and_eq_true,
      Bool.not_eq_true'] at hk
    exact ⟨b, t, rfl, hk.1, hk.2⟩

/-- No encoding of a white-space rune above U+007F starts, or ends, with the
encoding of another one of a different length. -/
theorem unicodeSpaces_free (rev : Bool) : ∀ e ∈ unicodeSpaces, ∀ r ∈ unicodeSpaces,
    ((if rev = true then e.reverse else e).isPrefixOf (if rev = true then r.reverse else r)
      || (if rev = true then r.reverse else r).isPrefixOf
          (if rev = true then e.reverse else e)) = true →
    e.length = r.length := by
  cases rev <;> decide

theorem spaceWidth_cons (rev : Bool) (b : Fin 256) (t : GoString) :
    spaceWidth rev (b :: t)
      = if asciiSpace b = true then 1
        else
          match unicodeSpaces.find?
            (fun e => (if rev = true then e.reverse else e).isPrefixOf (b :: t)) with
          | some e => e.length
          | none => 0 := rfl

/-- In front of a string that starts with a white-space rune (or, back to
front, ends with one), `spaceWidth` is the width of that rune. -/
theorem spaceWidth_rune (rev : Bool) (r : GoString) (hr : r ∈ spaceRunes) (s : GoString) :
    spaceWidth rev ((if rev = true then r.reverse else r) ++ s) = r.length := by
  unfold spaceRunes at hr
  rcases List.mem_append.mp hr with h | h
  · simp only [List.mem_cons, List.mem_singleton, List.not_mem_nil, or_false] at h
    rcases h with rfl | rfl | rfl | rfl | rfl | rfl <;> cases rev <;> rfl
  · obtain ⟨b, t, hbt, hna, _⟩ := unicodeSpaces_head rev r h
    rw [hbt, List.cons_append, spaceWidth_cons, if_neg (by simp [hna])]
    have hrp : (b :: t) <+: b :: (t ++ s) := ⟨s, rfl⟩
    cases hf : unicodeSpaces.find?
        (fun e => (if rev = true then e.reverse else e).isPrefixOf (b :: (t ++ s))) with
    | none =>
      exfalso
      have := List.find?_eq_none.mp hf r h
      apply this
      simp only [hbt]
      exact List.isPrefixOf_iff_prefix.mpr hrp
    | some e =>
      simp only
      have hp0 := List.find?_some hf
      have hp : (if rev = true then e.reverse else e).isPrefixOf (b :: (t ++ s)) = true := hp0
      have he : (if rev = true then e.reverse else e) <+: b :: (t ++ s) :=
        List.isPrefixOf_iff_prefix.mp hp
      apply unicodeSpaces_free rev e (List.mem_of_find?_eq_some hf) r h
      rw [Bool.or_eq_true, List.isPrefixOf_iff_prefix, List.isPrefixOf_iff_prefix, hbt]
      exact List.prefix_or_prefix_of_prefix he hrp

/-- In front of a digit `spaceWidth` finds no white space. -/
theorem spaceWidth_digit (rev : Bool) (d : Fin 256) (s : GoString) (hd : isDigit d = true) :
    spaceWidth rev (d :: s) = 0 := by
  rw [spaceWidth_cons, if_neg (by rw [digit_not_space d hd]; simp)]
  have : unicodeSpaces.find?
      (fun e => (if rev = true then e.reverse else e).isPrefixOf (d :: s)) = none := by
    rw [List.find?_eq_none]
    intro e he hp
    obtain ⟨b, t, hbt, _, hnd⟩ := unicodeSpaces_head rev e he
    simp only [hbt] at hp
    obtain ⟨u, hu⟩ := List.isPrefixOf_iff_prefix.mp hp
    injection hu with h1 _
    rw [h1, hd] at hnd
    cases hnd
  rw [this]

theorem rune_length (rev : Bool) (r : GoString) :
    (if rev = true then r.reverse else r).length = r.length := by
  cases rev <;> simp

/-- The loop of `TrimSpace` removes a run of white-space runes in front of a
string that does not start with white space. -/
theorem trimSpaces_runes (rev : Bool) (rs : List GoString) (hrs : ∀ r ∈ rs, r ∈ spaceRunes) :
    ∀ (fuel : Nat) (rest : GoString), spaceWidth rev rest = 0 →
      ((rs.map (fun r => if rev = true then r.reverse else r)).flatten ++ rest).length ≤ fuel →
      trimSpaces rev fuel
        ((rs.map (fun r => if rev = true then r.reverse else r)).flatten ++ rest) = rest := by
  induction rs with
  | nil =>
    intro fuel rest h0 _
    simp only [List.map_nil, List.flatten_nil, List.nil_append]
    cases fuel with
    | zero => rfl
    | succ f => simp only [trimSpaces, h0]
  | cons r rs ih =>
    intro fuel rest h0 hlen
    have hr := hrs r (List.mem_cons_self _ _)
    have hpos : 1 ≤ r.length := spaceRunes_pos r hr
    have hw := spaceWidth_rune rev r hr
      ((rs.map (fun r => if rev = true then r.reverse else r)).flatten ++ rest)
    have hlenr := rune_length rev r
    simp only [List.map_cons, List.flatten_cons, List.append_assoc] at hlen ⊢
    rw [List.length_append, hlenr] at hlen
    cases fuel with
    | zero => omega
    | succ f =>
      obtain ⟨w, hwl⟩ : ∃ w, r.length = w + 1 := ⟨r.length - 1, by omega⟩
      rw [hwl] at hw
      simp only [trimSpaces, hw]
      rw [← hwl, ← hlenr, List.drop_left]
      exact ih (fun x hx => hrs x (List.mem_cons_of_mem _ hx)) f rest h0 (by omega)

/-- What `spaceWidth` measures is a white-space rune. -/
theorem spaceWidth_succ (rev : Bool) (s : GoString) (w : Nat)
    (h : spaceWidth rev s = w + 1) :
    ∃ r ∈ spaceRunes, s = (if rev = true then r.reverse else r) ++ s.drop (w + 1) := by
  cases s with
  | nil => cases h
  | cons b t =>
    rw [spaceWidth_cons] at h
    by_cases ha : asciiSpace b = true
    · rw [if_pos ha] at h
      have hw : w = 0 := by omega
      subst hw
      refine ⟨[b], asciiSpace_rune b ha, ?_⟩
      cases rev <;> rfl
    · rw [if_neg ha] at h
      cases hf : unicodeSpaces.find?
          (fun e => (if rev = true then e.reverse else e).isPrefixOf (b :: t)) with
      | none => rw [hf] at h; cases h
      | some e =>
        rw [hf] at h
        simp only at h
        refine ⟨e, List.mem_append_right _ (List.mem_of_find?_eq_some hf), ?_⟩
        have hp0 := List.find?_some hf
        have hp : (if rev = true then e.reverse else e).isPrefixOf (b :: t) = true := hp0
        obtain ⟨u, hu⟩ := List.isPrefixOf_iff_prefix.mp hp
        rw [← hu, ← h, ← rune_length rev e, List.drop_left]

/-- What the loop of `TrimSpace` removes is a run of white-space runes. -/
theorem trimSpaces_decomp (rev : Bool) : ∀ (fuel : Nat) (s : GoString),
    ∃ rs : List GoString, (∀ r ∈ rs, r ∈ spaceRunes) ∧
      s = (rs.map (fun r => if rev = true then r.reverse else r)).flatten
            ++ trimSpaces rev fuel s := by
  intro fuel
  induction fuel with
  | zero => intro s; exact ⟨[], by simp, by simp [trimSpaces]⟩
  | succ f ih =>
    intro s
    cases hw : spaceWidth rev s with
    | zero => exact ⟨[], by simp, by simp [trimSpaces, hw]⟩
    | succ w =>
      obtain ⟨r, hr, hs⟩ := spaceWidth_succ rev s w hw
      obtain ⟨rs, hrs, hd⟩ := ih (s.drop (w + 1))
      refine ⟨r :: rs, ?_, ?_⟩
      · intro x hx
        rcases List.mem_cons.mp hx with rfl | hx
        · exact hr
        · exact hrs x hx
      · have ht : trimSpaces rev (f + 1) s = trimSpaces rev f (s.drop (w + 1)) := by
          simp only [trimSpaces, hw]
        rw [ht, List.map_cons, List.flatten_cons, List.append_assoc, ← hd]
        exact hs

theorem whiteSpace_flatten (rs : List GoString) (hrs : ∀ r ∈ rs, r ∈ spaceRunes) :
    WhiteSpace rs.flatten := by
  induction rs with
  | nil => exact WhiteSpace.nil
  | cons r rs ih =>
    rw [List.flatten_cons]
    exact WhiteSpace.cons r _ (hrs r (List.mem_cons_self _ _))
      (ih (fun x hx => hrs x (List.mem_cons_of_mem _ hx)))

theorem whiteSpace_runes (s : GoString) (h : WhiteSpace s) :
    ∃ rs : List GoString, (∀ r ∈ rs, r ∈ spaceRunes) ∧ s = rs.flatten := by
  induction h with
  | nil => exact ⟨[], by simp, rfl⟩
  | cons r s hr _ ih =>
    obtain ⟨rs, hrs, hs⟩ := ih
    refine ⟨r :: rs, ?_, by rw [List.flatten_cons, hs]⟩
    intro x hx
    rcases List.mem_cons.mp hx with rfl | hx
    · exact hr
    · exact hrs x hx

theorem map_reverse_reverse (rs : List GoString) :
    (rs.map List.reverse).map List.reverse = rs := by
  induction rs with
  | nil => rfl
  | cons r rs ih => simp

/-- The function `TrimSpace` splits a string into leading white space, the
result, and trailing white space. -/
theorem trimSpace_decomp (s : GoString) :
    ∃ lead trail, WhiteSpace lead ∧ WhiteSpace trail ∧ s = lead ++ TrimSpace s ++ trail := by
  obtain ⟨ls, hls, hl⟩ := trimSpaces_decomp false s.length s
  obtain ⟨ts, hts, ht⟩ := trimSpaces_decomp true (trimSpaces false s.length s).length
    (trimSpaces false s.length s).reverse
  simp only [Bool.false_eq_true, if_false, List.map_id', if_true] at hl ht
  refine ⟨ls.flatten, ts.reverse.flatten, whiteSpace_flatten ls hls,
    whiteSpace_flatten ts.reverse (fun r hr => hts r (List.mem_reverse.mp hr)), ?_⟩
  have hrev := congrArg List.reverse ht
  rw [List.reverse_reverse, List.reverse_append, List.reverse_flatten, List.map_map] at hrev
  have hid : (List.reverse ∘ fun r : GoString => r.reverse) = id := by
    funext r; simp
  rw [hid, List.map_id] at hrev
  unfold TrimSpace
  simp only
  rw [List.append_assoc, ← hrev]
  exact hl

/-- The function `TrimSpace` returns the digits between leading and trailing
white space. -/
theorem trimSpace_digits (lead n trail : GoString) (hl : WhiteSpace lead)
    (ht : WhiteSpace trail) (hn : n ≠ []) (hd : ∀ b ∈ n, isDigit b = true) :
    TrimSpace (lead ++ n ++ trail) = n := by
  obtain ⟨ls, hls, rfl⟩ := whiteSpace_runes lead hl
  obtain ⟨ts, hts, rfl⟩ := whiteSpace_runes trail ht
  have hfirst : spaceWidth false (n ++ ts.flatten) = 0 := by
    cases n with
    | nil => exact absurd rfl hn
    | cons d t => exact spaceWidth_digit false d _ (hd d (List.mem_cons_self _ _))
  have hlast : spaceWidth true n.reverse = 0 := by
    cases hr : n.reverse with
    | nil => exact absurd (List.reverse_eq_nil_iff.mp hr) hn
    | cons d t =>
      apply spaceWidth_digit true d t
      apply hd
      rw [← List.mem_reverse, hr]
      exact List.mem_cons_self _ _
  have hleft : trimSpaces false (ls.flatten ++ n ++ ts.flatten).length
      (ls.flatten ++ n ++ ts.flatten) = n ++ ts.flatten := by
    have := trimSpaces_runes false ls hls (ls.flatten ++ n ++ ts.flatten).length
      (n ++ ts.flatten) hfirst
    simp only [Bool.false_eq_true, if_false, List.map_id', List.append_assoc] at this ⊢
    exact this (le_refl _)
  have hrevform : (n ++ ts.flatten).reverse
      = ((ts.reverse).map (fun r : GoString => if true = true then r.reverse else r)).flatten
          ++ n.reverse := by
    simp only [if_true]
    rw [List.reverse_append, List.reverse_flatten, List.map_reverse]
  have hright : trimSpaces true (n ++ ts.flatten).length (n ++ ts.flatten).reverse
      = n.reverse := by
    rw [hrevform]
    apply trimSpaces_runes true ts.reverse (fun r hr => hts r (List.mem_reverse.mp hr)) _ _ hlast
    rw [← hrevform, List.length_reverse]
  unfold TrimSpace
  simp only
  rw [hleft, hright, List.reverse_reverse]

/-- Claim C16: for a body of at most 1024 bytes, `readOrderNumber` returns the
string n without error exactly when the body is n between leading and trailing
white space (each a possibly empty run of white-space runes) and n is a
non-empty string of decimal digits whose value is at most 2^64 - 1; and a
submission whose body is, between white space, a string of digits with a value
above 2^64 - 1 is answered 400 by `UploadOrderHandler`, the store untouched,
whatever `validateLuhn` says about it. -/
theorem readOrderNumber_iff (body : GoString) (hlen : body.length ≤ 1024) :
    (∀ n : GoString, readOrderNumber body = .ok n
      ↔ ∃ lead trail, body = lead ++ n ++ trail ∧ WhiteSpace lead ∧ WhiteSpace trail ∧
          n ≠ [] ∧ (∀ b ∈ n, isDigit b = true) ∧ decimalValue n ≤ 2 ^ 64 - 1) ∧
    (∀ lead n trail, body = lead ++ n ++ trail → WhiteSpace lead → WhiteSpace trail →
      (∀ b ∈ n, isDigit b = true) → 2 ^ 64 - 1 < decimalValue n →
      ∀ (create : String → GoString → DB → Option GoError × DB) (userID : String) (db : DB),
        UploadOrderHandler create ⟨"POST", some userID, body⟩ db = (Response.status 400, db)) := by
  have hnot : ¬ 1024 < body.length := by omega
  have htrim : ∀ n : GoString, readOrderNumber body = .ok n
      ↔ n = TrimSpace body ∧ n ≠ [] ∧ (∀ b ∈ n, isDigit b = true) ∧
          decimalValue n ≤ 2 ^ 64 - 1 := by
    intro n
    unfold readOrderNumber
    simp only [hnot, if_false]
    by_cases he : TrimSpace body = []
    · simp only [he, if_true]
      constructor
      · intro h; cases h
      · rintro ⟨h1, h2, _⟩; exact absurd h1 h2
    · simp only [he, if_false]
      cases hp : ParseUint (TrimSpace body) with
      | none =>
        simp only
        constructor
        · intro h; cases h
        · rintro ⟨h1, h2, h3, h4⟩
          subst h1
          have : ParseUint (TrimSpace body) = some (decimalValue (TrimSpace body)) :=
            (parseUint_iff _ _).mpr ⟨h2, h3, rfl, by omega⟩
          rw [hp] at this; cases this
      | some v =>
        simp only
        obtain ⟨h2, h3, h4, h5⟩ := (parseUint_iff _ _).mp hp
        constructor
        · intro h
          cases h
          exact ⟨rfl, h2, h3, by omega⟩
        · rintro ⟨h1, _⟩
          rw [h1]
  refine ⟨fun n => ?_, ?_⟩
  · rw [htrim n]
    constructor
    · rintro ⟨h1, h2, h3, h4⟩
      obtain ⟨lead, trail, hl, ht, hb⟩ := trimSpace_decomp body
      exact ⟨lead, trail, by rw [h1]; exact hb, hl, ht, h2, h3, h4⟩
    · rintro ⟨lead, trail, hb, hl, ht, h2, h3, h4⟩
      exact ⟨by rw [hb, trimSpace_digits lead n trail hl ht h2 h3], h2, h3, h4⟩
  · intro lead n trail hb hl ht hd hbig create userID db
    have hn : n ≠ [] := by
      intro h
      rw [h] at hbig
      simp [decimalValue] at hbig
    have ht : TrimSpace body = n := by rw [hb, trimSpace_digits lead n trail hl ht hn hd]
    have herr : ∀ m, readOrderNumber body ≠ .ok m := by
      intro m hm
      obtain ⟨h1, _, _, h4⟩ := (htrim m).mp hm
      rw [h1, ht] at h4
      omega
    unfold UploadOrderHandler
    cases hr : readOrderNumber body with
    | error e => simp
    | ok m => exact absurd hr (herr m)

set_option maxRecDepth 16384 in
/-- Witness for claim C16: the body made of a no-break space, a space, the digits
79927398713, a carriage return and a line feed yields 79927398713; and the
digits 18446744073709551629, which are 2^64 + 13 and pass `validateLuhn`, sent
between a space and a line feed, are answered 400. -/
theorem readOrderNumber_iff_witness :
    readOrderNumber ([0xC2, 0xA0, 32] ++ ascii "79927398713" ++ [13, 10])
      = .ok (ascii "79927398713") ∧
    validateLuhn (ascii "18446744073709551629") = true ∧
    UploadOrderHandler (orderSvc noFaults 0)
        ⟨"POST", some "u1", [32] ++ ascii "18446744073709551629" ++ [10]⟩
        ⟨[⟨"u1", 0, 0⟩], [], []⟩
      = (Response.status 400, ⟨[⟨"u1", 0, 0⟩], [], []⟩) :=
  ⟨((readOrderNumber_iff ([0xC2, 0xA0, 32] ++ ascii "79927398713" ++ [13, 10])
      (by decide)).1 (ascii "79927398713")).mpr
      ⟨[0xC2, 0xA0, 32], [13, 10], rfl,
        WhiteSpace.cons [0xC2, 0xA0] [32] (by decide)
          (WhiteSpace.cons [32] [] (by decide) WhiteSpace.nil),
        WhiteSpace.cons [13] [10] (by decide)
          (WhiteSpace.cons [10] [] (by decide) WhiteSpace.nil),
        by decide, by decide, by decide⟩,
   by decide,
   (readOrderNumber_iff ([32] ++ ascii "18446744073709551629" ++ [10]) (by decide)).2
     [32] (ascii "18446744073709551629") [10] rfl
     (WhiteSpace.cons [32] [] (by decide) WhiteSpace.nil)
     (WhiteSpace.cons [10] [] (by decide) WhiteSpace.nil)
     (by decide) (by decide)
     (orderSvc noFaults 0) "u1" ⟨[⟨"u1", 0, 0⟩], [], []⟩⟩

/-! ## The set of order statuses -/

set_option maxRecDepth 8192 in
/-- Claim C11 (fails on the code): order 79927398713 is submitted and the accrual
authority answers 200 with the status "FOO"; `processBatch` writes that string
to the order, whose status is then none of NEW, PROCESSING, INVALID, PROCESSED. -/
theorem processBatch_writes_unknown_status :
    (run (initialDB [⟨"u1", 0, 0⟩])
        [submit79927398713, .cycle answersFOO noFaults (fun _ => noFaults)]).orders.map
        (fun o => (o.number, o.status)) = [(ascii "79927398713", "FOO")] ∧
      ¬ knownStatus "FOO" := by
  decide

/-! ## The shape of what the services commit -/

/-- The store after `WithdrawalService.Create`: as before, or with the customer
debited and one record appended, which requires the balance to cover the sum. -/
theorem withdrawalCreate_shape (db : DB) (f : Faults) (now : Nat) (c : String)
    (label : GoString) (m : ℚ) :
    (WithdrawalService.Create db f now c label m).2 = db ∨
    (∃ u, db.user c = some u ∧ m ≤ u.current_balance ∧
      (WithdrawalService.Create db f now c label m).1 = none ∧
      (WithdrawalService.Create db f now c label m).2
        = ⟨debitRows db.users c m, db.orders,
            db.withdrawals ++ [⟨c, label, round2 m, now⟩]⟩) := by
  unfold WithdrawalService.Create
  by_cases h1 : f .beginTx = true
  · simp [h1]
  by_cases h2 : f .selectBalance = true
  · simp [h1, h2]
  simp only [h1, h2, Bool.false_eq_true, if_false]
  cases hu : db.user c with
  | none => simp
  | some u =>
    simp only
    by_cases hlt : u.current_balance < m
    · simp [hlt]
    by_cases h3 : f .insertWithdrawal = true
    · simp [hlt, h3]
    by_cases hfit : fitsNumeric m
    swap
    · simp [hlt, h3, hfit]
    by_cases h4 : f .debitBalance = true
    · simp [hlt, h3, hfit, h4]
    by_cases hd : debitFits db.users c m
    swap
    · simp [hlt, h3, hfit, h4, hd]
    by_cases h5 : f .commit = true
    · simp [hlt, h3, hfit, h4, hd, h5]
    · right
      exact ⟨u, rfl, not_lt.mp hlt, by simp [hlt, h3, hfit, h4, hd, h5],
        by simp [hlt, h3, hfit, h4, hd, h5]⟩

/-! ## Balances: what a step can do to a customer -/

theorem user_id_of_find (db : DB) (c : String) (u : UserRow) (h : db.user c = some u) :
    u.id = c := by
  have := List.find?_some h
  simpa using this

/-- The row of every customer after a credit of `x` to `owner`. -/
theorem user_credit (db db' : DB) (owner : String) (x : ℚ)
    (h : db'.users = creditRows db.users owner x) (c : String) :
    db'.user c = (db.user c).map (fun u =>
      if c = owner then { u with current_balance := round2 (u.current_balance + x) }
      else u) := by
  unfold DB.user
  rw [h, find_creditRows]
  cases hf : db.users.find? (fun u => u.id = c) with
  | none => rfl
  | some u =>
    have hid : u.id = c := user_id_of_find db c u hf
    simp [hid]

/-- The row of every customer after a debit of `m` from `payer`. -/
theorem user_debit (db db' : DB) (payer : String) (m : ℚ)
    (h : db'.users = debitRows db.users payer m) (c : String) :
    db'.user c = (db.user c).map (fun u =>
      if c = payer then
        { u with current_balance := round2 (u.current_balance - m),
                 withdrawn := round2 (u.withdrawn + m) }
      else u) := by
  unfold DB.user
  rw [h, find_debitRows]
  cases hf : db.users.find? (fun u => u.id = c) with
  | none => rfl
  | some u =>
    have hid : u.id = c := user_id_of_find db c u hf
    simp [hid]

/-- What `WithdrawHandler` on the withdrawal service does to the store: nothing,
or it answers 200 and the store carries one debit of a positive sum that the
balance of the requesting customer covered. -/
theorem withdrawHandler_debit (f : Faults) (now : Nat) (r : WithdrawHTTPRequest) (db : DB) :
    (WithdrawHandler (withdrawalSvc f now) r db).2 = db ∨
    ∃ userID req u, r.userID = some userID ∧ r.decoded = some req ∧ 0 < req.Sum ∧
      db.user userID = some u ∧ req.Sum ≤ u.current_balance ∧
      (WithdrawHandler (withdrawalSvc f now) r db).1 = Response.status 200 ∧
      (WithdrawHandler (withdrawalSvc f now) r db).2
        = ⟨debitRows db.users userID req.Sum, db.orders,
            db.withdrawals ++ [⟨userID, req.Order, round2 req.Sum, now⟩]⟩ := by
  unfold WithdrawHandler
  by_cases hm : r.Method = "POST"
  · simp only [hm, ne_eq, not_true_eq_false, if_false]
    cases hu : r.userID with
    | none => exact Or.inl rfl
    | some userID =>
      cases hd : r.decoded with
      | none => exact Or.inl rfl
      | some req =>
        simp only
        by_cases h1 : req.Order = [] ∨ req.Sum ≤ 0
        · simp [h1]
        · by_cases h2 : validateLuhn req.Order = true
          · simp only [h1, h2, if_false, Bool.not_true, Bool.false_eq_true]
            have hpos : 0 < req.Sum := not_le.mp (fun h => h1 (Or.inr h))
            rcases withdrawalCreate_shape db f now userID req.Order req.Sum with
              hsame | ⟨u, hu', hle, hnil, hst⟩
            · left
              cases hc : withdrawalSvc f now userID req.Order req.Sum db with
              | mk e db' =>
                have hdb : db' = db := by
                  unfold withdrawalSvc at hc
                  rw [hc] at hsame
                  exact hsame
                subst hdb
                cases e with
                | none => rfl
                | some err => dsimp only; split_ifs <;> rfl
            · right
              refine ⟨userID, req, u, rfl, rfl, hpos, hu', hle, ?_, ?_⟩
              · cases hc : withdrawalSvc f now userID req.Order req.Sum db with
                | mk e db' =>
                  unfold withdrawalSvc at hc
                  rw [hc] at hnil
                  simp only at hnil
                  subst hnil
                  rfl
              · cases hc : withdrawalSvc f now userID req.Order req.Sum db with
                | mk e db' =>
                  unfold withdrawalSvc at hc
                  rw [hc] at hnil hst
                  simp only at hnil hst
                  subst hnil
                  exact hst
          · simp [h1, h2]
  · simp [hm]

/-- One iteration of the worker changes no balance, or credits an amount above
0 to one customer. -/
theorem processOrder_users (authority : GoString → Exchange) (faults : GoString → Faults)
    (st : CycleState) (o : OrderRow) :
    (AccrualWorker.processOrder authority faults st o).db.users = st.db.users ∨
    ∃ owner x, 0 < x ∧
      (AccrualWorker.processOrder authority faults st o).db.users
        = creditRows st.db.users owner x := by
  rcases processOrder_cases authority faults st o with h | ⟨resp, _, h⟩
  · left; rw [h]
  · rw [h]
    rcases updateStatus_shape st.db (faults o.number) o.number
      (AccrualWorker.transition resp).1 (AccrualWorker.transition resp).2 with
      h1 | ⟨_, h2⟩ | ⟨x, ow, hx, _, _, h3⟩
    · left; rw [h1]
    · left; rw [h2]
    · right
      exact ⟨ow.user_id, x, ((transition_accrual resp).1 x hx).1, by rw [h3]⟩

/-- Adding amounts of two decimals that are not negative to available balances
keeps every balance at two decimals and every available balance at or above 0. -/
theorem centBalances_of_add (db db' : DB) (h : db.CentBalances)
    (hk : ∀ c, ∃ k : ℚ, 0 ≤ k ∧ twoDecimals k ∧
      db'.user c
        = (db.user c).map (fun u => { u with current_balance := u.current_balance + k })) :
    db'.CentBalances := by
  intro c u hu
  obtain ⟨k, hk0, hkt, hc⟩ := hk c
  rw [hc] at hu
  cases hv : db.user c with
  | none => rw [hv] at hu; cases hu
  | some v =>
    rw [hv] at hu
    simp only [Option.map_some', Option.some.injEq] at hu
    obtain ⟨h1, h2, h3⟩ := h c v hv
    rw [← hu]
    exact ⟨twoDecimals_add _ _ h1 hkt, h2, add_nonneg h3 hk0⟩

/-- One iteration of the worker, on balances of two decimals: it adds to the
available balance of each customer an amount of two decimals that is not
negative, and touches no withdrawn total. -/
theorem processOrder_balances (authority : GoString → Exchange) (faults : GoString → Faults)
    (st : CycleState) (o : OrderRow) (h : st.db.CentBalances) (c : String) :
    ∃ k : ℚ, 0 ≤ k ∧ twoDecimals k ∧
      (AccrualWorker.processOrder authority faults st o).db.user c
        = (st.db.user c).map (fun u => { u with current_balance := u.current_balance + k }) := by
  rcases processOrder_users authority faults st o with h0 | ⟨owner, x, hx, h1⟩
  · refine ⟨0, le_refl _, twoDecimals_zero, ?_⟩
    have : (AccrualWorker.processOrder authority faults st o).db.user c = st.db.user c := by
      unfold DB.user; rw [h0]
    rw [this]
    cases hu : st.db.user c <;> simp
  · by_cases hc : c = owner
    · refine ⟨round2 x, round2_nonneg x (le_of_lt hx), twoDecimals_round2 x, ?_⟩
      rw [user_credit st.db _ owner x h1 c]
      cases hu : st.db.user c with
      | none => rfl
      | some u =>
        obtain ⟨g1, _, g3⟩ := h c u hu
        have hr := round2_add_grid u.current_balance x g1 g3 (le_of_lt hx)
        simp only [Option.map_some', hc, if_true, hr]
    · refine ⟨0, le_refl _, twoDecimals_zero, ?_⟩
      rw [user_credit st.db _ owner x h1 c]
      cases hu : st.db.user c with
      | none => rfl
      | some u => simp [hc]

/-- A reconciliation cycle on balances of two decimals never lowers an available
balance and never touches a withdrawn total. -/
theorem loop_users (authority : GoString → Exchange) (faults : GoString → Faults)
    (l : List OrderRow) : ∀ (st : CycleState) (c : String), st.db.CentBalances →
    ∃ k : ℚ, 0 ≤ k ∧ twoDecimals k ∧
      (l.foldl (AccrualWorker.processOrder authority faults) st).db.user c
        = (st.db.user c).map (fun u => { u with current_balance := u.current_balance + k }) := by
  induction l with
  | nil =>
    intro st c _
    refine ⟨0, le_refl _, twoDecimals_zero, ?_⟩
    cases h : st.db.user c <;> simp [h]
  | cons x xs ih =>
    intro st c h
    rw [List.foldl_cons]
    have h' : (AccrualWorker.processOrder authority faults st x).db.CentBalances :=
      centBalances_of_add _ _ h (processOrder_balances authority faults st x h)
    obtain ⟨k, hk, hkt, hrest⟩ := ih (AccrualWorker.processOrder authority faults st x) c h'
    obtain ⟨k1, hk1, hkt1, hfirst⟩ := processOrder_balances authority faults st x h c
    refine ⟨k1 + k, add_nonneg hk1 hk, twoDecimals_add _ _ hkt1 hkt, ?_⟩
    rw [hrest, hfirst]
    cases hu : st.db.user c with
    | none => rfl
    | some u => simp [add_assoc]

theorem processBatch_users (batchSize : Nat) (authority : GoString → Exchange) (qf : Faults)
    (faults : GoString → Faults) (db : DB) (h : db.CentBalances) (c : String) :
    ∃ k : ℚ, 0 ≤ k ∧ twoDecimals k ∧
      (AccrualWorker.processBatch batchSize authority qf faults db).2.db.user c
        = (db.user c).map (fun u => { u with current_balance := u.current_balance + k }) := by
  cases hb : OrderService.GetUnprocessed db qf batchSize with
  | error e =>
    rw [processBatch_error batchSize authority qf faults db e hb]
    refine ⟨0, le_refl _, twoDecimals_zero, ?_⟩
    cases h : db.user c <;> simp [h]
  | ok batch =>
    rw [processBatch_ok batchSize authority qf faults db batch hb]
    exact loop_users authority faults batch ⟨db, []⟩ c h

theorem uploadOrder_users (f : Faults) (now : Nat) (r : UploadRequest) (db : DB) :
    (UploadOrderHandler (orderSvc f now) r db).2.users = db.users := by
  rcases uploadOrder_store f now r db with h | ⟨c, n, h, _⟩ <;> rw [h]

/-! ## Available balance: never negative, lowered by withdrawals only -/

/-- On balances of two decimals, a step that lowers the available balance of a
customer is a withdrawal request of that customer answered 200. -/
theorem step_lowers_only_by_withdrawal (db : DB) (s : Step) (c : String) (a a' : ℚ)
    (hcent : db.CentBalances)
    (ha : db.available c = some a) (ha' : (Step.apply db s).available c = some a')
    (hlt : a' < a) :
    ∃ r f now, s = .withdraw r f now ∧ r.userID = some c ∧
      (WithdrawHandler (withdrawalSvc f now) r db).1 = Response.status 200 := by
  unfold DB.available at ha ha'
  cases hu : db.user c with
  | none => rw [hu] at ha; cases ha
  | some u =>
    rw [hu] at ha
    simp only [Option.map_some', Option.some.injEq] at ha
    cases s with
    | submit r f now =>
      exfalso
      have : (Step.apply db (.submit r f now)).user c = db.user c := by
        unfold DB.user
        simp only [Step.apply]
        rw [uploadOrder_users]
      rw [this, hu] at ha'
      simp only [Option.map_some', Option.some.injEq] at ha'
      linarith
    | cycle authority qf faults =>
      exfalso
      obtain ⟨k, hk, _, hc⟩ :=
        processBatch_users AccrualWorker.batchSize authority qf faults db hcent c
      simp only [Step.apply] at ha'
      rw [hc, hu] at ha'
      simp only [Option.map_some', Option.some.injEq] at ha'
      linarith
    | withdraw r f now =>
      simp only [Step.apply] at ha'
      rcases withdrawHandler_debit f now r db with h | ⟨userID, req, v, h1, _, hpos, _, _, h200, hst⟩
      · exfalso
        rw [h, hu] at ha'
        simp only [Option.map_some', Option.some.injEq] at ha'
        linarith
      · refine ⟨r, f, now, rfl, ?_, h200⟩
        by_cases hc : c = userID
        · rw [h1, hc]
        · exfalso
          rw [user_debit db _ userID req.Sum (by rw [hst]) c, hu] at ha'
          simp only [Option.map_some', hc, if_false, Option.some.injEq] at ha'
          linarith

/-- Every step keeps every balance at two decimals and every available balance
at or above 0. -/
theorem step_cent (db : DB) (s : Step) (h : db.CentBalances) :
    (Step.apply db s).CentBalances := by
  cases s with
  | submit r f now =>
    intro c u hu
    have : (Step.apply db (.submit r f now)).user c = db.user c := by
      unfold DB.user
      simp only [Step.apply]
      rw [uploadOrder_users]
    rw [this] at hu
    exact h c u hu
  | cycle authority qf faults =>
    exact centBalances_of_add _ _ h
      (processBatch_users AccrualWorker.batchSize authority qf faults db h)
  | withdraw r f now =>
    intro c u hu
    simp only [Step.apply] at hu
    rcases withdrawHandler_debit f now r db with h0 | ⟨userID, req, v, _, _, _, hv, hle, _, hst⟩
    · rw [h0] at hu
      exact h c u hu
    · rw [user_debit db _ userID req.Sum (by rw [hst]) c] at hu
      cases hw : db.user c with
      | none => rw [hw] at hu; cases hu
      | some w =>
        rw [hw] at hu
        by_cases hc : c = userID
        · subst hc
          rw [hw] at hv
          cases hv
          simp only [Option.map_some', if_true, Option.some.injEq] at hu
          rw [← hu]
          exact ⟨twoDecimals_round2 _, twoDecimals_round2 _,
            round2_nonneg _ (sub_nonneg.mpr hle)⟩
        · simp only [Option.map_some', hc, if_false, Option.some.injEq] at hu
          rw [← hu]
          exact h c w hw

theorem run_cent (steps : List Step) : ∀ (db : DB), db.CentBalances →
    (run db steps).CentBalances := by
  induction steps with
  | nil => intro db h; exact h
  | cons s rest ih =>
    intro db h
    have hrun : run db (s :: rest) = run (Step.apply db s) rest := rfl
    rw [hrun]
    exact ih _ (step_cent db s h)

theorem initial_cent (users : List UserRow) (hz : ZeroBalances users) :
    (initialDB users).CentBalances := by
  intro c u hu
  have hmem : u ∈ users := List.mem_of_find?_eq_some hu
  obtain ⟨h1, h2⟩ := hz u hmem
  rw [h1, h2]
  exact ⟨twoDecimals_zero, twoDecimals_zero, le_refl _⟩

/-- Claim C13: start from customers with zero balances and no orders and take
any sequence of submissions, withdrawal requests through `WithdrawHandler` and
reconciliation cycles.  In the store reached, the available balance a of every
customer c is at least 0; and if one more step leaves c with an available
balance below a, that step is a withdrawal request of c that `WithdrawHandler`
answered 200. -/
theorem available_nonneg_and_monotone (users : List UserRow) (hz : ZeroBalances users)
    (steps : List Step) (c : String) (a : ℚ)
    (ha : (run (initialDB users) steps).available c = some a) :
    0 ≤ a ∧
    ∀ (s : Step) (a' : ℚ),
      (Step.apply (run (initialDB users) steps) s).available c = some a' → a' < a →
      ∃ r f now, s = .withdraw r f now ∧ r.userID = some c ∧
        (WithdrawHandler (withdrawalSvc f now) r (run (initialDB users) steps)).1
          = Response.status 200 := by
  have hcent := run_cent steps _ (initial_cent users hz)
  refine ⟨?_, fun s a' ha' hlt => step_lowers_only_by_withdrawal _ s c a a' hcent ha ha' hlt⟩
  unfold DB.available at ha
  cases hu : (run (initialDB users) steps).user c with
  | none => rw [hu] at ha; cases ha
  | some u =>
    rw [hu] at ha
    simp only [Option.map_some', Option.some.injEq] at ha
    rw [← ha]
    exact (hcent c u hu).2.2

set_option maxRecDepth 16384 in
/-- Witness for claim C13: after order 79927398713 of customer u1 was processed
with 15.50, the available balance of u1 is 15.50, which is not negative. -/
theorem available_nonneg_and_monotone_witness :
    (run (initialDB [⟨"u1", 0, 0⟩])
        [submit79927398713, .cycle processed1550 noFaults (fun _ => noFaults)]).available "u1"
      = some (31 / 2) ∧ (0 : ℚ) ≤ 31 / 2 :=
  ⟨by with_unfolding_all rfl,
   (available_nonneg_and_monotone [⟨"u1", 0, 0⟩] (by simp [ZeroBalances])
     [submit79927398713, .cycle processed1550 noFaults (fun _ => noFaults)] "u1" (31 / 2)
     (by with_unfolding_all rfl)).1⟩

/-! ## Ledger conservation -/

theorem creditsOf_nil (c : String) : creditsOf [] c = 0 := by
  simp [creditsOf]

theorem creditsOf_cons (o : OrderRow) (os : List OrderRow) (c : String) :
    creditsOf (o :: os) c
      = (if o.status = "PROCESSED" ∧ o.user_id = c then o.accrual else 0) + creditsOf os c := by
  unfold creditsOf
  by_cases h : o.status = "PROCESSED" ∧ o.user_id = c
  · simp [List.filter_cons, h]
  · simp only [List.filter_cons, h, decide_False, Bool.false_eq_true, if_false, zero_add]

theorem creditsOf_append (os ps : List OrderRow) (c : String) :
    creditsOf (os ++ ps) c = creditsOf os c + creditsOf ps c := by
  induction os with
  | nil => simp [creditsOf_nil]
  | cons o os ih => rw [List.cons_append, creditsOf_cons, creditsOf_cons, ih, add_assoc]

theorem updateOrderRows_of_absent (orders : List OrderRow) (n : GoString) (status : String)
    (accrual : Option ℚ) (h : ∀ r ∈ orders, r.number ≠ n) :
    updateOrderRows orders n status accrual = orders := by
  rw [updateOrderRows_eq_map]
  conv_rhs => rw [← List.map_id orders]
  apply List.map_congr_left
  intro o ho
  simp [h o ho]

theorem updateOrderRows_cons (o : OrderRow) (os : List OrderRow) (n : GoString)
    (status : String) (accrual : Option ℚ) :
    updateOrderRows (o :: os) n status accrual
      = (if o.number = n then
          { o with status := status, accrual := (accrual.map round2).getD o.accrual }
          else o) :: updateOrderRows os n status accrual := by
  simp only [updateOrderRows_eq_map, List.map_cons]

/-- Moving orders that are not PROCESSED to a status other than PROCESSED leaves
the credits of every customer as they were. -/
theorem creditsOf_update_other (orders : List OrderRow) (n : GoString) (status : String)
    (accrual : Option ℚ) (c : String) (hs : status ≠ "PROCESSED")
    (hp : ∀ r ∈ orders, r.number = n → r.status ≠ "PROCESSED") :
    creditsOf (updateOrderRows orders n status accrual) c = creditsOf orders c := by
  induction orders with
  | nil => rfl
  | cons o os ih =>
    rw [updateOrderRows_cons, creditsOf_cons, creditsOf_cons,
      ih (fun r hr => hp r (List.mem_cons_of_mem _ hr))]
    by_cases hn : o.number = n
    · have := hp o (List.mem_cons_self _ _) hn
      simp [hn, hs, this]
    · simp [hn]

/-- Moving the one order of a number, not PROCESSED so far, to PROCESSED with
accrual `x` adds `x` as NUMERIC(10,2) stores it to the credits of its owner and
nothing to anybody else. -/
theorem creditsOf_update_processed (orders : List OrderRow) (r0 : OrderRow) (x : ℚ)
    (c : String) (hu : (orders.map (fun o => o.number)).Nodup) (h0 : r0 ∈ orders)
    (hp : r0.status ≠ "PROCESSED") :
    creditsOf (updateOrderRows orders r0.number "PROCESSED" (some x)) c
      = creditsOf orders c + (if r0.user_id = c then round2 x else 0) := by
  induction orders with
  | nil => cases h0
  | cons o os ih =>
    rw [List.map_cons, List.nodup_cons] at hu
    rw [updateOrderRows_cons, creditsOf_cons, creditsOf_cons]
    by_cases hn : o.number = r0.number
    · have hr : r0 = o := by
        rcases List.mem_cons.mp h0 with h | h
        · exact h
        · exact absurd (hn ▸ List.mem_map_of_mem (fun o => o.number) h) hu.1
      subst hr
      have habs : ∀ r ∈ os, r.number ≠ r0.number := by
        intro r hr he
        exact hu.1 (he ▸ List.mem_map_of_mem (fun o => o.number) hr)
      rw [updateOrderRows_of_absent os r0.number _ _ habs]
      simp only [if_true, Option.map_some', Option.getD_some, true_and, hp, false_and, if_false]
      ring
    · have hmem : r0 ∈ os := by
        rcases List.mem_cons.mp h0 with h | h
        · exact absurd (h ▸ rfl) hn
        · exact h
      rw [ih hu.2 hmem]
      simp only [hn, if_false]
      ring

/-- One iteration of the worker keeps the ledger equation: for every customer,
available plus withdrawn equals the credits of the PROCESSED orders the customer
owns. -/
theorem ledger_after_processOrder (authority : GoString → Exchange)
    (faults : GoString → Faults) (st : CycleState) (o : OrderRow)
    (hu : st.db.UniqueNumbers) (hcent : st.db.CentBalances)
    (hl : ∀ c u, st.db.user c = some u →
      u.current_balance + u.withdrawn = st.db.processedCredits c)
    (hp : ∀ r ∈ st.db.orders, r.number = o.number →
      r.status = "NEW" ∨ r.status = "PROCESSING") :
    ∀ c u, (AccrualWorker.processOrder authority faults st o).db.user c = some u →
      u.current_balance + u.withdrawn
        = (AccrualWorker.processOrder authority faults st o).db.processedCredits c := by
  have hnp : ∀ r ∈ st.db.orders, r.number = o.number → r.status ≠ "PROCESSED" := by
    intro r hr hn
    rcases hp r hr hn with h | h <;> rw [h] <;> decide
  intro c u
  rcases processOrder_cases authority faults st o with h | ⟨resp, _, h⟩
  · rw [h]; exact hl c u
  · rw [h]
    rcases updateStatus_shape st.db (faults o.number) o.number
      (AccrualWorker.transition resp).1 (AccrualWorker.transition resp).2 with
      h1 | ⟨hcase, h2⟩ | ⟨x, ow, hx, hs, hfind, h3⟩
    · rw [h1]; exact hl c u
    · rw [h2]
      have hs : (AccrualWorker.transition resp).1 ≠ "PROCESSED" := by
        rcases hcase with h | h
        · exact h
        · exact (transition_accrual resp).2 h
      intro hcu
      have hcu' : st.db.user c = some u := hcu
      rw [hl c u hcu']
      unfold DB.processedCredits
      exact (creditsOf_update_other st.db.orders o.number _ _ c hs hnp).symm
    · rw [h3]
      have hxpos : 0 < x := ((transition_accrual resp).1 x hx).1
      rw [find_updateOrderRows] at hfind
      cases hold : st.db.orders.find? (fun r => r.number = o.number) with
      | none => rw [hold] at hfind; cases hfind
      | some r0 =>
        rw [hold] at hfind
        have hr0 : r0 ∈ st.db.orders := List.mem_of_find?_eq_some hold
        have hn0 : r0.number = o.number := by
          have := List.find?_some hold
          simpa using this
        have how : ow.user_id = r0.user_id := by
          simp only [Option.map_some', hn0, if_true, Option.some.injEq] at hfind
          rw [← hfind]
        rw [user_credit st.db _ ow.user_id x rfl c]
        cases hcu : st.db.user c with
        | none => intro h; cases h
        | some v =>
          intro hv
          simp only [Option.map_some', Option.some.injEq] at hv
          have hled := hl c v hcu
          obtain ⟨g1, _, g3⟩ := hcent c v hcu
          have hr := round2_add_grid v.current_balance x g1 g3 (le_of_lt hxpos)
          unfold DB.processedCredits at hled ⊢
          simp only
          rw [hx, hs, ← hn0,
            creditsOf_update_processed st.db.orders r0 x c hu hr0 (hnp r0 hr0 hn0), ← hled, ← hv,
            how]
          by_cases hc : c = r0.user_id
          · subst hc
            simp only [if_true, hr]
            ring
          · have hc' : ¬ r0.user_id = c := fun h => hc h.symm
            simp [hc, hc']

theorem ledger_after_loop (authority : GoString → Exchange) (faults : GoString → Faults)
    (l : List OrderRow) : ∀ (st : CycleState),
    (l.map (fun o => o.number)).Nodup → st.db.UniqueNumbers → st.db.CentBalances →
    (∀ c u, st.db.user c = some u →
      u.current_balance + u.withdrawn = st.db.processedCredits c) →
    (∀ r ∈ st.db.orders, r.number ∈ l.map (fun o => o.number) →
      r.status = "NEW" ∨ r.status = "PROCESSING") →
    ∀ c u, (l.foldl (AccrualWorker.processOrder authority faults) st).db.user c = some u →
      u.current_balance + u.withdrawn
        = (l.foldl (AccrualWorker.processOrder authority faults) st).db.processedCredits c := by
  induction l with
  | nil => intro st _ _ _ hl _; exact hl
  | cons x xs ih =>
    intro st hnd hu hcent hl hp
    rw [List.map_cons, List.nodup_cons] at hnd
    rw [List.foldl_cons]
    apply ih _ hnd.2
    · unfold DB.UniqueNumbers
      rw [processOrder_numbers]
      exact hu
    · exact centBalances_of_add _ _ hcent (processOrder_balances authority faults st x hcent)
    · exact ledger_after_processOrder authority faults st x hu hcent hl
        (fun r hr hn => hp r hr (by rw [hn]; exact List.mem_cons_self _ _))
    · intro r' hr' hin
      obtain ⟨g, hk, hg⟩ := processOrder_orders_map authority faults st x
      rw [hg] at hr'
      obtain ⟨r, hr, hrr'⟩ := List.mem_map.mp hr'
      have hnum : r'.number = r.number := by
        rw [← hrr']
        by_cases h : r.number = x.number <;> simp [h, hk]
      have hne : r.number ≠ x.number := by
        intro he
        rw [hnum, he] at hin
        exact hnd.1 hin
      have hsame : r' = r := by rw [← hrr']; simp [hne]
      rw [hsame]
      exact hp r hr (List.mem_cons_of_mem _ (by rw [← hnum]; exact hin))

theorem ledger_after_processBatch (batchSize : Nat) (authority : GoString → Exchange)
    (qf : Faults) (faults : GoString → Faults) (db : DB) (hu : db.UniqueNumbers)
    (hcent : db.CentBalances)
    (hl : ∀ c u, db.user c = some u → u.current_balance + u.withdrawn = db.processedCredits c) :
    ∀ c u, (AccrualWorker.processBatch batchSize authority qf faults db).2.db.user c = some u →
      u.current_balance + u.withdrawn
        = (AccrualWorker.processBatch batchSize authority qf faults db).2.db.processedCredits c := by
  cases hb : OrderService.GetUnprocessed db qf batchSize with
  | error e =>
    rw [processBatch_error batchSize authority qf faults db e hb]
    exact hl
  | ok batch =>
    rw [processBatch_ok batchSize authority qf faults db batch hb]
    apply ledger_after_loop authority faults batch ⟨db, []⟩
      (getUnprocessed_nodup db qf batchSize batch hu hb) hu hcent hl
    intro r hr hin
    obtain ⟨b, hb', hbn⟩ := List.mem_map.mp hin
    obtain ⟨hbdb, hpend⟩ := getUnprocessed_mem db qf batchSize batch hb b hb'
    have : b = r := row_eq_of_number db b r hu hbdb hr hbn
    rw [← this]
    exact hpend

/-- Every step whose withdrawal sum has at most two decimals keeps the ledger
equation. -/
theorem step_ledger (db : DB) (s : Step) (hs : s.centSums) (hu : db.UniqueNumbers)
    (hcent : db.CentBalances)
    (hl : ∀ c u, db.user c = some u → u.current_balance + u.withdrawn = db.processedCredits c) :
    ∀ c u, (Step.apply db s).user c = some u →
      u.current_balance + u.withdrawn = (Step.apply db s).processedCredits c := by
  cases s with
  | submit r f now =>
    simp only [Step.apply]
    rcases uploadOrder_store f now r db with h | ⟨c0, n, h, _⟩
    · rw [h]; exact hl
    · rw [h]
      intro c u hcu
      have hcu' : db.user c = some u := hcu
      rw [hl c u hcu']
      unfold DB.processedCredits
      simp only
      rw [creditsOf_append, creditsOf_cons, creditsOf_nil]
      simp
  | withdraw r f now =>
    simp only [Step.apply]
    rcases withdrawHandler_debit f now r db with h | ⟨userID, req, v, _, hreq, _, _, _, _, hst⟩
    · rw [h]; exact hl
    · intro c u
      have hm : twoDecimals req.Sum := hs req hreq
      rw [user_debit db _ userID req.Sum (by rw [hst]) c]
      cases hcu : db.user c with
      | none => intro h; cases h
      | some w =>
        intro hu'
        simp only [Option.map_some', Option.some.injEq] at hu'
        have hled := hl c w hcu
        obtain ⟨g1, g2, _⟩ := hcent c w hcu
        have hcred : (WithdrawHandler (withdrawalSvc f now) r db).2.processedCredits c
            = db.processedCredits c := by
          rw [hst]; rfl
        rw [hcred, ← hled, ← hu']
        by_cases hc : c = userID
        · simp only [hc, if_true, round2_of_twoDecimals _ (twoDecimals_sub _ _ g1 hm),
            round2_of_twoDecimals _ (twoDecimals_add _ _ g2 hm)]
          ring
        · simp [hc]
  | cycle authority qf faults =>
    simp only [Step.apply]
    exact ledger_after_processBatch _ authority qf faults db hu hcent hl

theorem run_ledger (steps : List Step) : ∀ (db : DB), (∀ s ∈ steps, s.centSums) →
    db.UniqueNumbers → db.CentBalances →
    (∀ c u, db.user c = some u → u.current_balance + u.withdrawn = db.processedCredits c) →
    ∀ c u, (run db steps).user c = some u →
      u.current_balance + u.withdrawn = (run db steps).processedCredits c := by
  induction steps with
  | nil => intro db _ _ _ hl; exact hl
  | cons s rest ih =>
    intro db hs hu hcent hl
    have hrun : run db (s :: rest) = run (Step.apply db s) rest := rfl
    rw [hrun]
    exact ih _ (fun t ht => hs t (List.mem_cons_of_mem _ ht)) (step_preserves db s hu).1
      (step_cent db s hcent)
      (step_ledger db s (hs s (List.mem_cons_self _ _)) hu hcent hl)

set_option maxRecDepth 16384 in
/-- Claim C12 (fails on the code): order 79927398713 of customer u1 is processed
with 15.50 and u1 then withdraws 0.005 through the Withdrawal Intake.  The
columns being NUMERIC(10,2), the available balance stays 15.50 and the withdrawn
total becomes 0.01: their sum is 15.51, the credits of u1 are 15.50. -/
theorem ledger_broken_by_half_cent :
    (run (initialDB [⟨"u1", 0, 0⟩])
        [submit79927398713, .cycle processed1550 noFaults (fun _ => noFaults),
          withdrawHalfCent]).available "u1" = some (31 / 2) ∧
    (run (initialDB [⟨"u1", 0, 0⟩])
        [submit79927398713, .cycle processed1550 noFaults (fun _ => noFaults),
          withdrawHalfCent]).withdrawnTotal "u1" = some (1 / 100) ∧
    (run (initialDB [⟨"u1", 0, 0⟩])
        [submit79927398713, .cycle processed1550 noFaults (fun _ => noFaults),
          withdrawHalfCent]).processedCredits "u1" = 31 / 2 ∧
    (31 / 2 : ℚ) + 1 / 100 ≠ 31 / 2 := by
  refine ⟨by with_unfolding_all rfl, by with_unfolding_all rfl, by with_unfolding_all rfl,
    by norm_num⟩

/-- Claim C12 as amended: start from customers with zero balances and no orders
and take any sequence of submissions, withdrawal requests through
`WithdrawHandler` whose sums have at most two decimals, and reconciliation
cycles, with arbitrary gateway answers and store faults.  For every customer c,
with available balance a and withdrawn total w in the store reached, a + w is the
sum of the accruals of the PROCESSED orders c owns. -/
theorem ledger_conservation_cents (users : List UserRow) (hz : ZeroBalances users)
    (steps : List Step) (hs : ∀ s ∈ steps, s.centSums) (c : String) (a w : ℚ)
    (ha : (run (initialDB users) steps).available c = some a)
    (hw : (run (initialDB users) steps).withdrawnTotal c = some w) :
    a + w = (run (initialDB users) steps).processedCredits c := by
  have hinit : ∀ c u, (initialDB users).user c = some u →
      u.current_balance + u.withdrawn = (initialDB users).processedCredits c := by
    intro c u hcu
    have hmem : u ∈ users := List.mem_of_find?_eq_some hcu
    obtain ⟨h1, h2⟩ := hz u hmem
    rw [h1, h2]
    simp [DB.processedCredits, initialDB, creditsOf_nil]
  have hrun := run_ledger steps (initialDB users) hs
    (by simp [DB.UniqueNumbers, initialDB]) (initial_cent users hz) hinit c
  unfold DB.available at ha
  unfold DB.withdrawnTotal at hw
  cases hcu : (run (initialDB users) steps).user c with
  | none => rw [hcu] at ha; cases ha
  | some u =>
    rw [hcu] at ha hw
    simp only [Option.map_some', Option.some.injEq] at ha hw
    rw [← ha, ← hw]
    exact hrun u hcu

set_option maxRecDepth 16384 in
/-- Witness for the amended claim C12: order 79927398713 of u1 is processed with
15.50 and u1 then withdraws 5: available 10.50, withdrawn 5, credits 15.50. -/
theorem ledger_conservation_cents_witness :
    (run (initialDB [⟨"u1", 0, 0⟩])
        [submit79927398713, .cycle processed1550 noFaults (fun _ => noFaults),
          withdraw5]).available "u1" = some (21 / 2) ∧
    (run (initialDB [⟨"u1", 0, 0⟩])
        [submit79927398713, .cycle processed1550 noFaults (fun _ => noFaults),
          withdraw5]).withdrawnTotal "u1" = some 5 ∧
    (21 / 2 : ℚ) + 5 = (run (initialDB [⟨"u1", 0, 0⟩])
        [submit79927398713, .cycle processed1550 noFaults (fun _ => noFaults),
          withdraw5]).processedCredits "u1" :=
  ⟨by with_unfolding_all rfl, by with_unfolding_all rfl,
   ledger_conservation_cents [⟨"u1", 0, 0⟩] (by simp [ZeroBalances])
     [submit79927398713, .cycle processed1550 noFaults (fun _ => noFaults), withdraw5]
     (by
      intro s hs
      simp only [List.mem_cons, List.mem_singleton, List.not_mem_nil, or_false] at hs
      rcases hs with rfl | rfl | rfl
      · trivial
      · trivial
      · intro req hreq
        cases hreq
        exact ⟨500, by norm_num⟩)
     "u1" (21 / 2) 5 (by with_unfolding_all rfl) (by with_unfolding_all rfl)⟩

/-! ## Order statuses when the authority keeps to its documented answers -/

theorem transition_known (resp : AccrualResponse) (h : documentedStatus resp.Status) :
    knownStatus (AccrualWorker.transition resp).1 := by
  unfold AccrualWorker.transition knownStatus
  rcases h with h | h | h | h
  · simp [h]
  · simp [h]
  · simp [h]
  · by_cases ha : resp.Accrual > 0 <;> simp [h, ha]

theorem updateStatus_statuses (db : DB) (f : Faults) (n : GoString) (status : String)
    (accrual : Option ℚ) (hs : knownStatus status)
    (h : ∀ r ∈ db.orders, knownStatus r.status) :
    ∀ r ∈ (OrderService.UpdateStatus db f n status accrual).2.orders, knownStatus r.status := by
  have hupd : ∀ r ∈ updateOrderRows db.orders n status accrual, knownStatus r.status := by
    intro r hr
    rw [updateOrderRows_eq_map] at hr
    obtain ⟨r0, hr0, he⟩ := List.mem_map.mp hr
    by_cases hn : r0.number = n
    · simp only [hn, if_true] at he
      rw [← he]; exact hs
    · simp only [hn, if_false] at he
      rw [← he]; exact h r0 hr0
  rcases updateStatus_shape db f n status accrual with h1 | ⟨_, h2⟩ | ⟨x, o, _, _, _, h3⟩
  · rw [h1]; exact h
  · rw [h2]; exact hupd
  · rw [h3]; exact hupd

theorem loop_statuses (authority : GoString → Exchange) (faults : GoString → Faults)
    (hdoc : ∀ n resp, AccrualClient.GetOrder (authority n) = .ok resp →
      documentedStatus resp.Status)
    (l : List OrderRow) : ∀ (st : CycleState),
    (∀ r ∈ st.db.orders, knownStatus r.status) →
    ∀ r ∈ (l.foldl (AccrualWorker.processOrder authority faults) st).db.orders,
      knownStatus r.status := by
  induction l with
  | nil => intro st h; exact h
  | cons x xs ih =>
    intro st h
    rw [List.foldl_cons]
    apply ih
    rcases processOrder_cases authority faults st x with h0 | ⟨resp, hg, h1⟩
    · rw [h0]; exact h
    · rw [h1]
      exact updateStatus_statuses st.db _ _ _ _ (transition_known resp (hdoc _ resp hg)) h

/-- A step in which the authority keeps to its documented statuses leaves every
order with one of the four statuses of model/order.go. -/
theorem step_statuses (db : DB) (s : Step) (hdoc : s.documented)
    (h : ∀ r ∈ db.orders, knownStatus r.status) :
    ∀ r ∈ (Step.apply db s).orders, knownStatus r.status := by
  cases s with
  | submit r f now =>
    simp only [Step.apply]
    rcases uploadOrder_store f now r db with h0 | ⟨c, n, h1, _⟩
    · rw [h0]; exact h
    · rw [h1]
      intro r hr
      rcases List.mem_append.mp hr with hr | hr
      · exact h r hr
      · rw [List.mem_singleton] at hr
        rw [hr]; exact Or.inl rfl
  | withdraw r f now =>
    simp only [Step.apply]
    rw [withdrawHandler_orders]
    exact h
  | cycle authority qf faults =>
    simp only [Step.apply]
    cases hb : OrderService.GetUnprocessed db qf AccrualWorker.batchSize with
    | error e =>
      rw [processBatch_error _ authority qf faults db e hb]
      exact h
    | ok batch =>
      rw [processBatch_ok _ authority qf faults db batch hb]
      exact loop_statuses authority faults hdoc batch ⟨db, []⟩ h

/-- As long as the accrual authority keeps to its documented statuses, every
order of every store reached from a fresh deployment has one of the statuses
NEW, PROCESSING, INVALID, PROCESSED. -/
theorem run_statuses (users : List UserRow) (steps : List Step)
    (hdoc : ∀ s ∈ steps, s.documented) :
    ∀ r ∈ (run (initialDB users) steps).orders, knownStatus r.status := by
  have hgen : ∀ (steps : List Step) (db : DB), (∀ s ∈ steps, s.documented) →
      (∀ r ∈ db.orders, knownStatus r.status) →
      ∀ r ∈ (run db steps).orders, knownStatus r.status := by
    intro steps
    induction steps with
    | nil => intro db _ h; exact h
    | cons s rest ih =>
      intro db hd h
      have hrun : run db (s :: rest) = run (Step.apply db s) rest := rfl
      rw [hrun]
      exact ih _ (fun t ht => hd t (List.mem_cons_of_mem _ ht))
        (step_statuses db s (hd s (List.mem_cons_self _ _)) h)
  exact hgen steps (initialDB users) hdoc (by simp [initialDB])

/-! ## Two withdrawals one after the other -/

set_option maxRecDepth 16384 in
/-- A customer holding 100 asks twice for 60, the second request served after
the first: the first call of `WithdrawalService.Create` succeeds, the second
reports insufficient funds, and 40 remain. -/
theorem serial_withdrawals_one_succeeds :
    (WithdrawalService.Create ⟨[⟨"u1", 100, 0⟩], [], []⟩ noFaults 1 "u1" (ascii "18") 60).1
      = none ∧
    (WithdrawalService.Create
      (WithdrawalService.Create ⟨[⟨"u1", 100, 0⟩], [], []⟩ noFaults 1 "u1" (ascii "18") 60).2
      noFaults 2 "u1" (ascii "26") 60).1.map GoError.Error = some "insufficient funds" ∧
    (WithdrawalService.Create
      (WithdrawalService.Create ⟨[⟨"u1", 100, 0⟩], [], []⟩ noFaults 1 "u1" (ascii "18") 60).2
      noFaults 2 "u1" (ascii "26") 60).2.available "u1" = some 40 := by
  refine ⟨?_, ?_, ?_⟩ <;> with_unfolding_all rfl

end Gophermart
